import Mathlib

/-!
# binance-kline-fetcher: a shallow embedding and its properties

The development follows `src/binance-kline-fetcher.cpp`:

* `http_get_with_retry` (with `WriteCallback`) — the retrying HTTP GET;
* `BinanceKLineFetcher::parse_klines` — wire records to `KLine`;
* `BinanceKLineFetcher::fetch_klines` — the paginated cursor loop;
* `ClickHouseStorage::insert_klines` — row batch to column block.

Everything the program obtains from outside (libcurl transfers, the JSON
library, `std::stod`, the C library's calendar functions) enters as an explicit
argument or as a documented model of the library's behaviour.  Console output
and the `sleep_for` pauses have no effect on any value computed and are left
out.
-/

namespace BinanceKline

/-! ## Machine integers -/

/-- Two's-complement reading of an integer in `w` bits (`w ≥ 1`): the value a
signed `w`-bit variable holds after a conversion or an arithmetic result that
does not fit. -/
def wrapBits (w : Nat) (x : Int) : Int :=
  (x + 2 ^ (w - 1)) % 2 ^ w - 2 ^ (w - 1)

/-- The value as a `long long` (64 bits). -/
def wrapLL (x : Int) : Int := wrapBits 64 x

/-- The value as an `int` (32 bits). -/
def wrapInt (x : Int) : Int := wrapBits 32 x

/-- The range of `long long`. -/
def inLL (x : Int) : Prop := -(2 : Int) ^ 63 ≤ x ∧ x < (2 : Int) ^ 63

instance (x : Int) : Decidable (inLL x) := by unfold inLL; exact inferInstance

/-- Multiplication `a * b` on `long long`. -/
def mulLL (a b : Int) : Int := wrapLL (a * b)

/-- Addition `a + b` on `long long`. -/
def addLL (a b : Int) : Int := wrapLL (a + b)

/-! ## HTTP GET with retry -/

/-- What one `curl_easy_perform` does, as seen by the program: the blocks of
body bytes it hands to the write callback, in order, and whether it ends with
`CURLE_OK`. -/
structure Transfer where
  chunks : List String
  ok : Bool

/-- The callback `WriteCallback(contents, size, nmemb, userp)`: appends the block to the
string behind `userp` and returns `size * nmemb`, the number of bytes taken.
The result is the new buffer and the returned count. -/
def WriteCallback (contents : String) (userp : String) : String × Nat :=
  (userp ++ contents, contents.utf8ByteSize)

/-- libcurl feeding the blocks of a transfer to the write callback.  A callback
that reports a count other than the block size makes libcurl abort the
transfer; the second component tells whether every block was accepted. -/
def deliver : List String → String → String × Bool
  | [], buf => (buf, true)
  | c :: cs, buf =>
    let r := WriteCallback c buf
    if r.2 = c.utf8ByteSize then deliver cs r.1 else (r.1, false)

/-- The call `curl_easy_perform` with `CURLOPT_WRITEFUNCTION = WriteCallback` and
`CURLOPT_WRITEDATA = &readBuffer`: returns `res == CURLE_OK` and the buffer. -/
def curl_easy_perform (t : Transfer) (readBuffer : String) : Bool × String :=
  let r := deliver t.chunks readBuffer
  (t.ok && r.2, r.1)

/-- The network as `http_get_with_retry` meets it: whether `curl_easy_init`
yields a handle, and what the `i`-th `curl_easy_perform` (counted from 0) on
that handle does for a given URL and timeout. -/
structure Curl where
  init_ok : Bool
  perform : String → Int → Nat → Transfer

/-- Result of `http_get_with_retry`: the returned string, and the number of
`curl_easy_perform` calls made (the attempts). -/
structure HttpResult where
  body : String
  attempts : Nat
deriving DecidableEq, Repr

/-- The `while (attempt < max_retry)` loop of `http_get_with_retry`.
`performed` counts the `curl_easy_perform` calls made so far.  The first
argument bounds the number of passes; `attempt` counts up from 0 and the loop
stops at `max_retry`, so `max_retry` passes are all the loop can make
(`retry_loop_bound_irrelevant`). -/
def retry_loop (curl : Curl) (url : String) (max_retry timeout : Int) :
    Nat → Int → String → Nat → HttpResult
  | 0, _, readBuffer, performed => ⟨readBuffer, performed⟩
  | bound + 1, attempt, readBuffer, performed =>
    if attempt < max_retry then
      let cleared := ""                                   -- readBuffer.clear()
      let r := curl_easy_perform (curl.perform url timeout performed) cleared
      if r.1 then ⟨r.2, performed + 1⟩                     -- res == CURLE_OK: break
      else retry_loop curl url max_retry timeout bound (attempt + 1) r.2 (performed + 1)
    else ⟨readBuffer, performed⟩

/-- The function `http_get_with_retry(url, max_retry, timeout)`. -/
def http_get_with_retry (curl : Curl) (url : String) (max_retry timeout : Int) :
    HttpResult :=
  if ¬ curl.init_ok then ⟨"", 0⟩                         -- if (!curl) return ""
  else retry_loop curl url max_retry timeout max_retry.toNat 0 "" 0

/-- Default `max_retry` of `http_get_with_retry`. -/
def default_max_retry : Int := 3

/-- Default `timeout` of `http_get_with_retry`. -/
def default_timeout : Int := 10

/-- The bytes a transfer delivers: its blocks, concatenated. -/
def Transfer.delivered (t : Transfer) : String :=
  t.chunks.foldl (fun acc c => acc ++ c) ""

/-- A connection on which every transfer breaks off (say, by the timeout) after
the first bytes of the body have reached the write callback. -/
def stallingCurl : Curl :=
  ⟨true, fun _ _ _ => ⟨["[[1704067200000,"], false⟩⟩

/-- A connection whose first two transfers fail after delivering some bytes and
whose third succeeds, the body arriving in two blocks. -/
def flakyCurl : Curl :=
  ⟨true, fun _ _ i => if i < 2 then ⟨["<html>"], false⟩ else ⟨["[[1,2]", ",[3,4]]"], true⟩⟩

/-! ## KLine records -/

/-- The record `struct KLine`.  `F` stands for `double`; `open` is spelled `open_`. -/
structure KLine (F : Type) where
  time_stamp : Int
  symbol : String
  open_ : F
  high : F
  low : F
  close : F
  volume : F
  amount : F
  trade : Int
  type : String
  datetime : String
  date : String
  date_stamp : Int
deriving DecidableEq

/-! ## The libraries `parse_klines` calls -/

/-- A parsed JSON value of `nlohmann::json`, with its three number kinds. -/
inductive Json (F : Type) where
  | null
  | boolean (b : Bool)
  | number_integer (i : Int)
  | number_unsigned (n : Nat)
  | number_float (x : F)
  | string (s : String)
  | array (elems : List (Json F))
  | object (members : List (String × Json F))

/-- The library functions whose results the program only passes on.
* `json_parse`: `json::parse`; `none` when it throws `parse_error`.
* `stod`: `std::stod`; `none` when it throws (`invalid_argument`, `out_of_range`).
* `double_to_integer`: the integer a `static_cast` from `double` yields.
* `long_long_is_int64`: whether `long long` is the type `std::int64_t` names
  (then `get<long long>()` rejects a JSON boolean, otherwise it converts it).
* `indeterminate`: what is read from `buf` after an `strftime` that returned 0. -/
structure Lib (F : Type) where
  json_parse : String → Option (Json F)
  stod : String → Option F
  double_to_integer : F → Int
  long_long_is_int64 : Bool
  indeterminate : String

/-- The values `for (auto& item : j)` visits: the elements of an array, the
values of an object, nothing for `null`, the value itself for a scalar. -/
def Json.items {F : Type} : Json F → List (Json F)
  | .null => []
  | .array elems => elems
  | .object members => members.map Prod.snd
  | j => [j]

/-- The access `item[idx]` on a non-const value (`operator[](size_type)`): a `null` turns
into an array; an array shorter than `idx + 1` is filled up with `null`s; any
other value throws `type_error` (`none`).  The filling changes no later read. -/
def Json.index {F : Type} (item : Json F) (idx : Nat) : Option (Json F) :=
  match item with
  | .null => some .null
  | .array elems => some (elems.getD idx .null)
  | _ => none

/-- The conversion `get<long long>()`: numbers convert (a `double` by `static_cast`), other
values throw `type_error`. -/
def Json.get_long_long {F : Type} (lib : Lib F) : Json F → Option Int
  | .number_unsigned n => some (wrapLL n)
  | .number_integer i => some (wrapLL i)
  | .number_float x => some (wrapLL (lib.double_to_integer x))
  | .boolean b => if lib.long_long_is_int64 then none else some (if b then 1 else 0)
  | _ => none

/-- The conversion `get<int>()`: numbers and booleans convert, other values throw. -/
def Json.get_int {F : Type} (lib : Lib F) : Json F → Option Int
  | .number_unsigned n => some (wrapInt n)
  | .number_integer i => some (wrapInt i)
  | .number_float x => some (wrapInt (lib.double_to_integer x))
  | .boolean b => some (if b then 1 else 0)
  | _ => none

/-- The conversion `get<std::string>()`: only a JSON string converts. -/
def Json.get_string {F : Type} : Json F → Option String
  | .string s => some s
  | _ => none

/-- The C `struct tm`, the members `strftime` reads here. -/
structure Tm where
  tm_sec : Int
  tm_min : Int
  tm_hour : Int
  tm_mday : Int
  tm_mon : Int
  tm_year : Int
deriving DecidableEq, Repr

/-- The C function `gmtime`: seconds since 1970-01-01T00:00:00Z to the proleptic Gregorian
calendar date and time of day in UTC (days are counted in 400-year eras that
start on 1 March). -/
def gmtime (t : Int) : Tm :=
  let days := t / 86400
  let rem := t % 86400
  let z := days + 719468
  let era := z / 146097
  let doe := z % 146097
  let yoe := (doe - doe / 1460 + doe / 36524 - doe / 146096) / 365
  let doy := doe - (365 * yoe + yoe / 4 - yoe / 100)
  let mp := (5 * doy + 2) / 153
  let d := doy - (153 * mp + 2) / 5 + 1
  let m := if mp < 10 then mp + 3 else mp - 9
  let y := yoe + era * 400 + (if m ≤ 2 then 1 else 0)
  ⟨rem % 60, rem / 60 % 60, rem / 3600, d, m - 1, y - 1900⟩

/-- The decimal digit character of `n % 10`. -/
def digitChar (n : Int) : Char := Char.ofNat (48 + (n % 10).toNat)

/-- A two-digit, zero-padded field (`%m`, `%d`, `%H`, `%M`, `%S`). -/
def twoDigits (n : Int) : List Char := [digitChar (n / 10), digitChar n]

/-- The year as a decimal number (`%Y`), with a sign when negative. -/
def yearDigits (y : Int) : List Char := (toString y).data

/-- The characters `strftime` produces for a format made of `%Y %m %d %H %M %S`
and ordinary characters. -/
def strftime_chars : List Char → Tm → List Char
  | '%' :: 'Y' :: fmt, tm => yearDigits (tm.tm_year + 1900) ++ strftime_chars fmt tm
  | '%' :: 'm' :: fmt, tm => twoDigits (tm.tm_mon + 1) ++ strftime_chars fmt tm
  | '%' :: 'd' :: fmt, tm => twoDigits tm.tm_mday ++ strftime_chars fmt tm
  | '%' :: 'H' :: fmt, tm => twoDigits tm.tm_hour ++ strftime_chars fmt tm
  | '%' :: 'M' :: fmt, tm => twoDigits tm.tm_min ++ strftime_chars fmt tm
  | '%' :: 'S' :: fmt, tm => twoDigits tm.tm_sec ++ strftime_chars fmt tm
  | c :: fmt, tm => c :: strftime_chars fmt tm
  | [], _ => []

/-- The C function `strftime(buf, maxsize, format, tm)`: the text, when it fits into `maxsize`
bytes with its terminating null; `none` when it does not (the call returns 0
and leaves `buf` indeterminate). -/
def strftime (maxsize : Nat) (format : String) (tm : Tm) : Option String :=
  let out := strftime_chars format.data tm
  if out.length + 1 ≤ maxsize then some (String.mk out) else none

/-! ## `BinanceKLineFetcher` -/

/-- The member `base_url`, set by the constructor. -/
def base_url : String := "https://api.binance.com/api/v3/klines"

/-- The member `freq_shifting`, set by the constructor. -/
def freq_shifting : List (String × Int) :=
  [("1m", 60 * 500), ("5m", 300 * 500), ("1h", 3600 * 500), ("1d", 86400 * 500)]

/-- The member `freq_map`, set by the constructor. -/
def freq_map : List (String × String) :=
  [("1m", "1min"), ("5m", "5min"), ("1h", "60min"), ("1d", "day")]

/-- The lookup `freq_map[freq]`: the label of the interval; for a key not in the map
`operator[]` inserts and returns the empty string. -/
def freq_map_at (freq : String) : String :=
  (freq_map.lookup freq).getD ""

/-- The array `buf` as read after `strftime(buf, sizeof(buf), format, timeinfo)` with
`char buf[20]`. -/
def buf_after_strftime {F : Type} (lib : Lib F) (format : String) (timeinfo : Tm) : String :=
  (strftime 20 format timeinfo).getD lib.indeterminate

/-- The expression `item[idx].get<long long>()`. -/
def field_long_long {F : Type} (lib : Lib F) (item : Json F) (idx : Nat) : Option Int :=
  (item.index idx).bind (Json.get_long_long lib)

/-- The expression `std::stod(item[idx].get<std::string>())`. -/
def field_double {F : Type} (lib : Lib F) (item : Json F) (idx : Nat) : Option F :=
  ((item.index idx).bind Json.get_string).bind lib.stod

/-- The expression `item[idx].get<int>()`. -/
def field_int {F : Type} (lib : Lib F) (item : Json F) (idx : Nat) : Option Int :=
  (item.index idx).bind (Json.get_int lib)

/-- The body of the `for` loop of `parse_klines`: the record built from one
element, or `none` when one of its statements throws. -/
def parse_item {F : Type} (lib : Lib F) (symbol freq : String) (item : Json F) :
    Option (KLine F) := do
  let k_symbol := "BINANCE." ++ symbol
  let ms ← field_long_long lib item 0
  let k_time_stamp := Int.tdiv ms 1000
  let k_open ← field_double lib item 1
  let k_high ← field_double lib item 2
  let k_low ← field_double lib item 3
  let k_close ← field_double lib item 4
  let k_volume ← field_double lib item 5
  let k_amount ← field_double lib item 7
  let k_trade ← field_int lib item 8
  let k_type := freq_map_at freq
  let timeinfo := gmtime k_time_stamp
  let k_datetime := buf_after_strftime lib "%Y-%m-%d %H:%M:%S" timeinfo
  let k_date := buf_after_strftime lib "%Y-%m-%d" timeinfo
  let k_date_stamp := k_time_stamp
  pure ⟨k_time_stamp, k_symbol, k_open, k_high, k_low, k_close, k_volume, k_amount,
    k_trade, k_type, k_datetime, k_date, k_date_stamp⟩

/-- The `for (auto& item : j)` loop with `klines.push_back(k)`; `none` when an
exception leaves the loop. -/
def parse_loop {F : Type} (lib : Lib F) (symbol freq : String) :
    List (Json F) → List (KLine F) → Option (List (KLine F))
  | [], klines => some klines
  | item :: rest, klines =>
    match parse_item lib symbol freq item with
    | none => none
    | some k => parse_loop lib symbol freq rest (klines ++ [k])

/-- The method `BinanceKLineFetcher::parse_klines(symbol, json_str, freq)`: any exception
inside the `try` block ends in `catch (...) { return {}; }`. -/
def parse_klines {F : Type} (lib : Lib F) (symbol json_str freq : String) : List (KLine F) :=
  match lib.json_parse json_str with
  | none => []
  | some j =>
    match parse_loop lib symbol freq j.items [] with
    | none => []
    | some klines => klines

/-! ## Vocabulary of the parser's contract -/

/-- The positions of a wire record that `parse_klines` reads: open time,
open, high, low, close, volume, quote volume (`amount`), trade count. -/
def expected_positions : List Nat := [0, 1, 2, 3, 4, 5, 7, 8]

/-- The element a record holds at a position: present only when the record is
an array with more than `idx` elements. -/
def Json.field {F : Type} (item : Json F) (idx : Nat) : Option (Json F) :=
  match item with
  | .array elems => elems.get? idx
  | _ => none

/-- The value at position `idx` is not parseable as the type expected there:
a `long long` at 0, a string that `std::stod` reads at 1-5 and 7, an `int`
at 8. -/
def Unparseable {F : Type} (lib : Lib F) (idx : Nat) (v : Json F) : Prop :=
  (idx = 0 ∧ v.get_long_long lib = none) ∨
  (idx ∈ [1, 2, 3, 4, 5, 7] ∧ v.get_string.bind lib.stod = none) ∨
  (idx = 8 ∧ v.get_int lib = none)

/-- A record that lacks an expected position or holds an unparseable value
there. -/
def BadRecord {F : Type} (lib : Lib F) (item : Json F) : Prop :=
  ∃ idx ∈ expected_positions,
    item.field idx = none ∨ ∃ v, item.field idx = some v ∧ Unparseable lib idx v

/-- A well-formed wire record, by position: `[0]` open time in milliseconds,
`[1..5]` open, high, low, close, volume as numeric strings, `[6]` close time
(not read), `[7]` quote-asset volume as numeric string, `[8]` trade count,
`[9..]` further fields (not read). -/
structure WireRecord (F : Type) where
  open_time : Nat
  open_ : String
  high : String
  low : String
  close : String
  volume : String
  close_time : Json F
  quote_volume : String
  trades : Nat
  rest : List (Json F)

/-- The JSON array of a wire record. -/
def WireRecord.toJson {F : Type} (w : WireRecord F) : Json F :=
  .array ([.number_unsigned w.open_time, .string w.open_, .string w.high, .string w.low,
    .string w.close, .string w.volume, w.close_time, .string w.quote_volume,
    .number_unsigned w.trades] ++ w.rest)

/-- The last second of the year 9999 (9999-12-31 23:59:59 UTC). -/
def max_time_stamp : Int := 253402300799

/-- Well-formedness of a wire record for a given library: every numeric string
is read by `std::stod`, the open time lies in the years 1970 to 9999, the trade
count is an `int`. -/
def WireRecord.WellFormed {F : Type} (lib : Lib F) (w : WireRecord F) : Prop :=
  (lib.stod w.open_).isSome ∧ (lib.stod w.high).isSome ∧ (lib.stod w.low).isSome ∧
  (lib.stod w.close).isSome ∧ (lib.stod w.volume).isSome ∧
  (lib.stod w.quote_volume).isSome ∧
  (w.open_time : Int) / 1000 ≤ max_time_stamp ∧ w.trades < 2 ^ 31

/-- Whether a year is a leap year of the Gregorian calendar. -/
def is_leap (y : Int) : Prop := (y % 4 = 0 ∧ y % 100 ≠ 0) ∨ y % 400 = 0

instance (y : Int) : Decidable (is_leap y) := by unfold is_leap; exact inferInstance

/-- Number of days of month `m` (1 to 12) of year `y`. -/
def days_in_month (y m : Int) : Int :=
  if m = 2 then (if is_leap y then 29 else 28)
  else if m = 4 ∨ m = 6 ∨ m = 9 ∨ m = 11 then 30 else 31

/-- Days from 1970-01-01 to the first day of year `y`. -/
def days_before_year (y : Int) : Int :=
  365 * (y - 1970) + ((y - 1) / 4 - (y - 1) / 100 + (y - 1) / 400) - 477

/-- Days from the first day of year `y` to the first day of its month `m`. -/
def days_before_month (y m : Int) : Int :=
  ((List.range (m.toNat - 1)).map (fun i => days_in_month y (i + 1))).sum

/-- Seconds from 1970-01-01 00:00:00 UTC to the given UTC calendar date and
time of day. -/
def utc_seconds (y m d hh mm ss : Int) : Int :=
  (days_before_year y + days_before_month y m + (d - 1)) * 86400 + hh * 3600 + mm * 60 + ss

/-- A calendar date and time of day with every field in its range. -/
def valid_civil (y m d hh mm ss : Int) : Prop :=
  1 ≤ m ∧ m ≤ 12 ∧ 1 ≤ d ∧ d ≤ days_in_month y m ∧
  0 ≤ hh ∧ hh < 24 ∧ 0 ≤ mm ∧ mm < 60 ∧ 0 ≤ ss ∧ ss < 60

/-- The four digits of a year from 1000 to 9999. -/
def fourDigits (y : Int) : List Char :=
  [digitChar (y / 1000), digitChar (y / 100), digitChar (y / 10), digitChar y]

/-- The text `YYYY-MM-DD HH:MM:SS` of a date and time of day. -/
def datetime_text (y m d hh mm ss : Int) : String :=
  String.mk (fourDigits y ++ '-' :: twoDigits m ++ '-' :: twoDigits d ++ ' ' :: twoDigits hh ++
    ':' :: twoDigits mm ++ ':' :: twoDigits ss)

/-- The record the contract asks for from a wire record: `k` renders `w`. -/
def Renders {F : Type} (lib : Lib F) (symbol freq : String) (w : WireRecord F)
    (k : KLine F) : Prop :=
  k.time_stamp = (w.open_time : Int) / 1000 ∧
  k.date_stamp = k.time_stamp ∧
  k.symbol = "BINANCE." ++ symbol ∧
  k.trade = w.trades ∧
  k.type = freq_map_at freq ∧
  lib.stod w.open_ = some k.open_ ∧ lib.stod w.high = some k.high ∧
  lib.stod w.low = some k.low ∧ lib.stod w.close = some k.close ∧
  lib.stod w.volume = some k.volume ∧ lib.stod w.quote_volume = some k.amount ∧
  (∃ y m d hh mm ss : Int, 1970 ≤ y ∧ y ≤ 9999 ∧ valid_civil y m d hh mm ss ∧
    utc_seconds y m d hh mm ss = k.time_stamp ∧
    k.datetime = datetime_text y m d hh mm ss) ∧
  k.date.data = k.datetime.data.take 10

/-! ## A concrete library instance

A small reader for the JSON the provider sends (arrays nested at most twice,
integers, strings without escapes, no white space) and a reader of plain
decimal numerals, to run the definitions on concrete payloads. -/

/-- An exact decimal number, `mantissa / 10 ^ exponent`. -/
structure Decimal where
  mantissa : Int
  exponent : Nat
deriving DecidableEq, Repr

/-- Reads the decimal digits at the head of the input; returns their value,
their number and the remaining input. -/
def readDigits : List Char → Nat → Nat → Nat × Nat × List Char
  | [], acc, cnt => (acc, cnt, [])
  | c :: cs, acc, cnt =>
    if c.isDigit then readDigits cs (acc * 10 + (c.toNat - 48)) (cnt + 1)
    else (acc, cnt, c :: cs)

/-- Reads a numeral `digits[.digits]` with an optional leading `-` at the head
of the string, as `std::stod` reads the longest numeric prefix; `none` when the
string does not start with a numeral. -/
def mini_stod (s : String) : Option Decimal :=
  let body := match s.data with
    | '-' :: cs => (true, cs)
    | cs => (false, cs)
  let ip := readDigits body.2 0 0
  if ip.2.1 = 0 then none
  else
    let fp := match ip.2.2 with
      | '.' :: cs => readDigits cs 0 0
      | _ => (0, 0, [])
    let m : Int := ip.1 * 10 ^ fp.2.1 + fp.1
    some ⟨if body.1 then -m else m, fp.2.1⟩

/-- Reads a string up to its closing quote. -/
def readString : List Char → List Char → Option (String × List Char)
  | [], _ => none
  | c :: cs, acc =>
    if c = '"' then some (String.mk acc.reverse, cs)
    else if c = '\\' then none
    else readString cs (c :: acc)

/-- Reads an integer or a string. -/
def readScalar (cs : List Char) : Option (Json Decimal × List Char) :=
  match cs with
  | '"' :: rest => (readString rest []).map (fun r => (.string r.1, r.2))
  | '-' :: rest =>
    let r := readDigits rest 0 0
    if r.2.1 = 0 then none else some (.number_integer (-(r.1 : Int)), r.2.2)
  | _ =>
    let r := readDigits cs 0 0
    if r.2.1 = 0 then none else some (.number_unsigned r.1, r.2.2)

/-- Reads the elements of an array after its opening bracket, each by `elem`,
up to the closing bracket. -/
def readElems {α : Type} (elem : List Char → Option (α × List Char)) :
    Nat → List Char → List α → Option (List α × List Char)
  | 0, _, _ => none
  | fuel + 1, cs, acc =>
    match elem cs with
    | none => none
    | some (v, ',' :: rest) => readElems elem fuel rest (acc ++ [v])
    | some (v, ']' :: rest) => some (acc ++ [v], rest)
    | some _ => none

/-- Reads an array whose elements `elem` reads. -/
def readArray {α : Type} (elem : List Char → Option (α × List Char)) (cs : List Char) :
    Option (List α × List Char) :=
  match cs with
  | '[' :: ']' :: rest => some ([], rest)
  | '[' :: rest => readElems elem rest.length rest []
  | _ => none

/-- Reads a scalar or an array of scalars. -/
def readRow (cs : List Char) : Option (Json Decimal × List Char) :=
  match cs with
  | '[' :: _ => (readArray readScalar cs).map (fun r => (.array r.1, r.2))
  | _ => readScalar cs

/-- Reads a whole text as a scalar, an array of scalars, or an array of such
arrays; `none` for anything else. -/
def mini_json_parse (s : String) : Option (Json Decimal) :=
  match s.data with
  | '[' :: _ =>
    match readArray readRow s.data with
    | some (rows, []) => some (.array rows)
    | _ => none
  | cs =>
    match readScalar cs with
    | some (v, []) => some v
    | _ => none

/-- A library instance built from the readers above. -/
def miniLib : Lib Decimal where
  json_parse := mini_json_parse
  stod := mini_stod
  double_to_integer := fun x => Int.tdiv x.mantissa (10 ^ x.exponent)
  long_long_is_int64 := false
  indeterminate := ""

/-- A page of two hourly records as the provider sends it. -/
def page_two_hours : String :=
  "[[1704067200000,\"0.05400\",\"0.05420\",\"0.05390\",\"0.05410\",\"1234.5\",1704070799999,\"66.7\",321,\"600.1\",\"32.4\",\"0\"],[1704070800000,\"0.05410\",\"0.05450\",\"0.05400\",\"0.05440\",\"987.6\",1704074399999,\"53.5\",210,\"500.2\",\"27.1\",\"0\"]]"

/-- The same page with the trade count and what follows missing from the
second record. -/
def page_short_record : String :=
  "[[1704067200000,\"0.05400\",\"0.05420\",\"0.05390\",\"0.05410\",\"1234.5\",1704070799999,\"66.7\",321,\"600.1\",\"32.4\",\"0\"],[1704070800000,\"0.05410\",\"0.05450\",\"0.05400\",\"0.05440\",\"987.6\",1704074399999,\"53.5\"]]"

/-- The first record of `page_two_hours`, by position. -/
def wire_hour0 : WireRecord Decimal :=
  ⟨1704067200000, "0.05400", "0.05420", "0.05390", "0.05410", "1234.5",
    .number_unsigned 1704070799999, "66.7", 321, [.string "600.1", .string "32.4", .string "0"]⟩

/-- The second record of `page_two_hours`, by position. -/
def wire_hour1 : WireRecord Decimal :=
  ⟨1704070800000, "0.05410", "0.05450", "0.05400", "0.05440", "987.6",
    .number_unsigned 1704074399999, "53.5", 210, [.string "500.2", .string "27.1", .string "0"]⟩

/-! ## `fetch_klines` -/

/-- The network during one call of `fetch_klines`: what the `i`-th call of
`http_get_with_retry` (counted from 0) meets. -/
abbrev Network := Nat → Curl

/-- The URL built at the top of the loop body. -/
def request_url (symbol freq : String) (current_start : Int) : String :=
  base_url ++ "?symbol=" ++ symbol ++ "&interval=" ++ freq ++
    "&startTime=" ++ toString (mulLL current_start 1000) ++
    "&limit=500"

/-- One pass through the loop as seen from outside: the cursor it started
with, the URL requested and the response received. -/
structure Request where
  current_start : Int
  url : String
  resp : String
deriving DecidableEq, Repr

/-- The variables of `fetch_klines`, the state `sink` the callback works on,
and the log of the requests made so far (oldest first). -/
structure FetchState (F σ : Type) where
  all_klines : List (KLine F)
  current_start : Int
  sink : σ
  requests : List Request

/-- The statement `if (callback) callback(klines)`: a registered callback acts on its own
state; without one nothing happens. -/
def run_callback {F σ : Type} (callback : Option (σ → List (KLine F) → σ)) (sink : σ)
    (klines : List (KLine F)) : σ :=
  match callback with
  | some f => f sink klines
  | none => sink

/-- The body of the `while` loop of `fetch_klines`.  The second component is
`false` when the body leaves the loop by `break`. -/
def fetch_body {F σ : Type} (lib : Lib F) (net : Network) (symbol freq : String)
    (callback : Option (σ → List (KLine F) → σ)) (st : FetchState F σ) :
    FetchState F σ × Bool :=
  let url := request_url symbol freq st.current_start
  let resp := (http_get_with_retry (net st.requests.length) url default_max_retry
    default_timeout).body
  let logged := st.requests ++ [⟨st.current_start, url, resp⟩]
  if resp = "" then (⟨st.all_klines, st.current_start, st.sink, logged⟩, false)
  else
    let klines := parse_klines lib symbol resp freq
    match klines.getLast? with
    | none => (⟨st.all_klines, st.current_start, st.sink, logged⟩, false)
    | some back =>
      (⟨st.all_klines ++ klines, addLL back.time_stamp 1, run_callback callback st.sink klines,
        logged⟩, true)

/-- How a bounded run of the loop ended: `returned = false` means the bound on
the number of passes was reached with `current_start < end_time` still true. -/
structure Run (F σ : Type) where
  state : FetchState F σ
  returned : Bool

/-- The loop `while (current_start < end_time)`, run for at most `fuel`
passes. -/
def fetch_loop {F σ : Type} (lib : Lib F) (net : Network) (symbol freq : String)
    (end_time : Int) (callback : Option (σ → List (KLine F) → σ)) :
    Nat → FetchState F σ → Run F σ
  | 0, st => if st.current_start < end_time then ⟨st, false⟩ else ⟨st, true⟩
  | fuel + 1, st =>
    if st.current_start < end_time then
      let r := fetch_body lib net symbol freq callback st
      if r.2 then fetch_loop lib net symbol freq end_time callback fuel r.1 else ⟨r.1, true⟩
    else ⟨st, true⟩

/-- The method `fetch_klines(symbol, start_time, end_time, freq, callback)`, run for at
most `fuel` passes of its loop; when `returned`, `state.all_klines` is the
value returned. -/
def fetch_klines {F σ : Type} (lib : Lib F) (net : Network) (symbol : String)
    (start_time end_time : Int) (freq : String)
    (callback : Option (σ → List (KLine F) → σ)) (sink : σ) (fuel : Nat) : Run F σ :=
  fetch_loop lib net symbol freq end_time callback fuel ⟨[], start_time, sink, []⟩

/-! ## Vocabulary of the fetcher's contract -/

/-- The page a response yields in the loop: none for an empty response, else
what `parse_klines` makes of it. -/
def page_of {F : Type} (lib : Lib F) (symbol freq : String) (resp : String) : List (KLine F) :=
  if resp = "" then [] else parse_klines lib symbol resp freq

/-- The response to the `i`-th request when it asks for the cursor `c`. -/
def response_at (net : Network) (symbol freq : String) (i : Nat) (c : Int) : String :=
  (http_get_with_retry (net i) (request_url symbol freq c) default_max_retry
    default_timeout).body

/-- The cursor after a page: one past the time stamp of its last record;
unchanged after an empty page. -/
def cursor_after {F : Type} (c : Int) (page : List (KLine F)) : Int :=
  match page.getLast? with
  | some back => back.time_stamp + 1
  | none => c

/-- The provider answers the requests numbered `i, i+1, ...`, the first asked
at cursor `c` and each later one at the cursor after the previous page, with
the given pages in turn. -/
def Serves {F : Type} (lib : Lib F) (net : Network) (symbol freq : String) :
    Nat → Int → List (List (KLine F)) → Prop
  | _, _, [] => True
  | i, c, p :: ps =>
    page_of lib symbol freq (response_at net symbol freq i c) = p ∧
    Serves lib net symbol freq (i + 1) (cursor_after c p) ps

/-- The cursors at which the pages of `Serves` are requested. -/
def cursors {F : Type} : Int → List (List (KLine F)) → List Int
  | _, [] => []
  | c, p :: ps => c :: cursors (cursor_after c p) ps

/-- A callback that records the batches it is given, in call order. -/
def record_batches {F : Type} (log : List (List (KLine F))) (batch : List (KLine F)) :
    List (List (KLine F)) :=
  log ++ [batch]

/-- A provider that has the two-record page of 2024-01-01 for the request
starting at 1704067200000 and the empty array for every other request. -/
def twoHourNet : Network := fun _ =>
  ⟨true, fun url _ _ =>
    if url = "https://api.binance.com/api/v3/klines?symbol=ETHBTC&interval=1h&startTime=1704067200000&limit=500"
    then ⟨[page_two_hours], true⟩ else ⟨["[]"], true⟩⟩

/-- A provider that answers every request with the two-record page of
2024-01-01, whatever start time is asked for. -/
def stuckNet : Network := fun _ => ⟨true, fun _ _ _ => ⟨[page_two_hours], true⟩⟩

/-- The records of `page_two_hours`. -/
def two_hour_klines : List (KLine Decimal) :=
  parse_klines miniLib "ETHBTC" page_two_hours "1h"

/-- The log the loop writes from request number `i` and cursor `c` on: every
request is made below `end_time`, at the cursor left by the page before it,
with the URL of that cursor, and only the last one may have an empty page. -/
def Logged {F : Type} (lib : Lib F) (net : Network) (symbol freq : String) (end_time : Int) :
    Nat → Int → List Request → Prop
  | _, _, [] => True
  | i, c, r :: rs =>
    r.current_start = c ∧ c < end_time ∧ r.url = request_url symbol freq c ∧
    r.resp = response_at net symbol freq i c ∧
    (rs ≠ [] → page_of lib symbol freq r.resp ≠ []) ∧
    Logged lib net symbol freq end_time (i + 1)
      (cursor_after c (page_of lib symbol freq r.resp)) rs

/-- The cursor after the pages of a log, starting from `c`. -/
def final_cursor {F : Type} (lib : Lib F) (symbol freq : String) : Int → List Request → Int
  | c, [] => c
  | c, r :: rs => final_cursor lib symbol freq (cursor_after c (page_of lib symbol freq r.resp)) rs

/-- The pages of a log, in request order. -/
def pages_of {F : Type} (lib : Lib F) (symbol freq : String) (rs : List Request) :
    List (List (KLine F)) :=
  rs.map (fun r => page_of lib symbol freq r.resp)

/-- The non-empty pages of a log, in request order: the batches. -/
def batches_of {F : Type} (lib : Lib F) (symbol freq : String) (rs : List Request) :
    List (List (KLine F)) :=
  (pages_of lib symbol freq rs).filter (fun p => !p.isEmpty)

/-- The page that follows `page_two_hours`: the records of 02:00 and 03:00. -/
def page_next_hours : String :=
  "[[1704074400000,\"0.05440\",\"0.05460\",\"0.05430\",\"0.05450\",\"800.0\",1704077999999,\"43.6\",180,\"400.0\",\"21.8\",\"0\"],[1704078000000,\"0.05450\",\"0.05470\",\"0.05440\",\"0.05460\",\"700.0\",1704081599999,\"38.2\",150,\"350.0\",\"19.1\",\"0\"]]"

/-- A provider that has `page_two_hours` for the request starting at
1704067200000, `page_next_hours` for the one starting at 1704070801000 and the
empty array for every other request. -/
def pagedNet : Network := fun _ =>
  ⟨true, fun url _ _ =>
    if url = "https://api.binance.com/api/v3/klines?symbol=ETHBTC&interval=1h&startTime=1704067200000&limit=500"
    then ⟨[page_two_hours], true⟩
    else if url = "https://api.binance.com/api/v3/klines?symbol=ETHBTC&interval=1h&startTime=1704070801000&limit=500"
    then ⟨[page_next_hours], true⟩
    else ⟨["[]"], true⟩⟩

/-- The cursor after a sequence of pages, starting from `c`. -/
def cursor_end {F : Type} (c : Int) (pages : List (List (KLine F))) : Int :=
  pages.foldl cursor_after c

/-! ## `ClickHouseStorage::insert_klines` -/

/-- A column of the client library, by element type: `ColumnInt64`,
`ColumnInt32`, `ColumnFloat64`, `ColumnString`. -/
inductive Column (F : Type) where
  | int64 (values : List Int)
  | int32 (values : List Int)
  | float64 (values : List F)
  | string (values : List String)
deriving DecidableEq

/-- The method `Column::Size()`. -/
def Column.Size {F : Type} : Column F → Nat
  | .int64 vs => vs.length
  | .int32 vs => vs.length
  | .float64 vs => vs.length
  | .string vs => vs.length

/-- The class `Block` of the client library: its row count and its named columns. -/
structure Block (F : Type) where
  rows_ : Nat
  columns_ : List (String × Column F)
deriving DecidableEq

/-- The method `Block::AppendColumn(name, col)`: the first column fixes the row count; a
later column of another size makes the call throw (`none`). -/
def Block.AppendColumn {F : Type} (b : Block F) (name : String) (col : Column F) :
    Option (Block F) :=
  if b.columns_.isEmpty then some ⟨col.Size, b.columns_ ++ [(name, col)]⟩
  else if col.Size ≠ b.rows_ then none
  else some ⟨b.rows_, b.columns_ ++ [(name, col)]⟩

/-- The thirteen column objects `insert_klines` fills. -/
structure KLineColumns (F : Type) where
  col_time_stamp : List Int
  col_symbol : List String
  col_open : List F
  col_high : List F
  col_low : List F
  col_close : List F
  col_volume : List F
  col_amount : List F
  col_trade : List Int
  col_type : List String
  col_datetime : List String
  col_date : List String
  col_date_stamp : List Int

/-- The body of `for (const auto& k : klines)`: one `Append` to each column. -/
def append_row {F : Type} (c : KLineColumns F) (k : KLine F) : KLineColumns F :=
  ⟨c.col_time_stamp ++ [k.time_stamp], c.col_symbol ++ [k.symbol], c.col_open ++ [k.open_],
    c.col_high ++ [k.high], c.col_low ++ [k.low], c.col_close ++ [k.close],
    c.col_volume ++ [k.volume], c.col_amount ++ [k.amount], c.col_trade ++ [k.trade],
    c.col_type ++ [k.type], c.col_datetime ++ [k.datetime], c.col_date ++ [k.date],
    c.col_date_stamp ++ [k.date_stamp]⟩

/-- A sequence of `block.AppendColumn(name, col)` calls; `none` when one of
them throws. -/
def append_columns {F : Type} (block : Block F) : List (String × Column F) → Option (Block F)
  | [] => some block
  | (name, col) :: rest =>
    match block.AppendColumn name col with
    | none => none
    | some block' => append_columns block' rest

/-- The thirteen `block.AppendColumn` calls on the empty `Block block;`, in
source order. -/
def build_block {F : Type} (c : KLineColumns F) : Option (Block F) :=
  append_columns ⟨0, []⟩
    [("time_stamp", .int64 c.col_time_stamp),
     ("symbol", .string c.col_symbol),
     ("open", .float64 c.col_open),
     ("high", .float64 c.col_high),
     ("low", .float64 c.col_low),
     ("close", .float64 c.col_close),
     ("volume", .float64 c.col_volume),
     ("amount", .float64 c.col_amount),
     ("trade", .int32 c.col_trade),
     ("type", .string c.col_type),
     ("datetime", .string c.col_datetime),
     ("date", .string c.col_date),
     ("date_stamp", .int64 c.col_date_stamp)]

/-- What a call of `insert_klines` does: nothing (empty batch), one
`client->Insert(table, block)`, or an exception out of `AppendColumn`. -/
inductive InsertOutcome (F : Type) where
  | nothing
  | insert (table : String) (block : Block F)
  | thrown
deriving DecidableEq

/-- The method `ClickHouseStorage::insert_klines(klines)`. -/
def insert_klines {F : Type} (klines : List (KLine F)) : InsertOutcome F :=
  if klines.isEmpty then .nothing
  else
    match build_block (klines.foldl append_row ⟨[], [], [], [], [], [], [], [], [], [], [], [], []⟩) with
    | some block => .insert "binance_kline" block
    | none => .thrown

/-! ## Vocabulary of the writer's contract -/

/-- The column names of the destination table, in order. -/
def column_names : List String :=
  ["time_stamp", "symbol", "open", "high", "low", "close", "volume", "amount", "trade", "type",
    "datetime", "date", "date_stamp"]

/-- Element `i` of a column, passed on to `next`; `none` when the column is
shorter. -/
@[noinline] def with_cell {α β : Type} (values : List α) (i : Nat) (next : α → Option β) :
    Option β :=
  match values.get? i with
  | some v => next v
  | none => none

/-- The record read back from row `i` of a block with the thirteen columns. -/
def row_at {F : Type} (block : Block F) (i : Nat) : Option (KLine F) :=
  match block.columns_ with
  | [(_, .int64 ts), (_, .string sym), (_, .float64 op), (_, .float64 hi), (_, .float64 lo),
     (_, .float64 cl), (_, .float64 vol), (_, .float64 amt), (_, .int32 tr), (_, .string ty),
     (_, .string dt), (_, .string da), (_, .int64 ds)] =>
    with_cell ts i fun k_time_stamp =>
    with_cell sym i fun k_symbol =>
    with_cell op i fun k_open =>
    with_cell hi i fun k_high =>
    with_cell lo i fun k_low =>
    with_cell cl i fun k_close =>
    with_cell vol i fun k_volume =>
    with_cell amt i fun k_amount =>
    with_cell tr i fun k_trade =>
    with_cell ty i fun k_type =>
    with_cell dt i fun k_datetime =>
    with_cell da i fun k_date =>
    with_cell ds i fun k_date_stamp =>
    some ⟨k_time_stamp, k_symbol, k_open, k_high, k_low, k_close, k_volume, k_amount, k_trade,
      k_type, k_datetime, k_date, k_date_stamp⟩
  | _ => none

/-- The records read back from `n` rows of a block, from row `i` on. -/
def rows_from {F : Type} (block : Block F) : Nat → Nat → List (KLine F)
  | 0, _ => []
  | n + 1, i =>
    match row_at block i with
    | some k => k :: rows_from block n (i + 1)
    | none => []

/-- The records read back from a block, row by row. -/
def rows_of {F : Type} (block : Block F) : List (KLine F) :=
  rows_from block block.rows_ 0

/-- The block the contract asks for from a batch: thirteen named columns, each
the list of one field over the batch, in batch order. -/
def block_of {F : Type} (klines : List (KLine F)) : Block F :=
  ⟨klines.length,
    [("time_stamp", .int64 (klines.map (·.time_stamp))), ("symbol", .string (klines.map (·.symbol))),
     ("open", .float64 (klines.map (·.open_))), ("high", .float64 (klines.map (·.high))),
     ("low", .float64 (klines.map (·.low))), ("close", .float64 (klines.map (·.close))),
     ("volume", .float64 (klines.map (·.volume))), ("amount", .float64 (klines.map (·.amount))),
     ("trade", .int32 (klines.map (·.trade))), ("type", .string (klines.map (·.type))),
     ("datetime", .string (klines.map (·.datetime))), ("date", .string (klines.map (·.date))),
     ("date_stamp", .int64 (klines.map (·.date_stamp)))]⟩

/-! # Theorems -/

/-! ## HTTP GET with retry -/

theorem foldl_append_init (cs : List String) (buf : String) :
    cs.foldl (fun acc c => acc ++ c) buf = buf ++ cs.foldl (fun acc c => acc ++ c) "" := by
  induction cs generalizing buf with
  | nil => simp
  | cons c cs ih =>
    simp only [List.foldl_cons]
    rw [ih (buf ++ c), ih ("" ++ c), String.empty_append, String.append_assoc]

theorem deliver_eq (cs : List String) (buf : String) :
    deliver cs buf = (cs.foldl (fun acc c => acc ++ c) buf, true) := by
  induction cs generalizing buf with
  | nil => rfl
  | cons c cs ih => simp [deliver, WriteCallback, ih]

theorem curl_easy_perform_cleared (t : Transfer) :
    curl_easy_perform t "" = (t.ok, t.delivered) := by
  simp [curl_easy_perform, deliver_eq, Transfer.delivered]

/-- The bound on the passes is never what stops the loop: once it is at least
`max_retry - attempt`, a larger bound gives the same result. -/
theorem retry_loop_bound_irrelevant (curl : Curl) (url : String) (max_retry timeout : Int)
    (bound : Nat) (attempt : Int) (readBuffer : String) (performed : Nat)
    (hb : max_retry - attempt ≤ bound) :
    retry_loop curl url max_retry timeout (bound + 1) attempt readBuffer performed =
      retry_loop curl url max_retry timeout bound attempt readBuffer performed := by
  induction bound generalizing attempt readBuffer performed with
  | zero =>
    have : ¬ attempt < max_retry := by simp at hb; omega
    simp [retry_loop, this]
  | succ b ih =>
    by_cases hlt : attempt < max_retry
    · conv_lhs => rw [retry_loop]
      conv_rhs => rw [retry_loop]
      simp only [hlt, if_true]
      rw [ih (attempt + 1) _ _ (by push_cast at hb; omega)]
    · simp [retry_loop, hlt]

/-- The loop when every remaining attempt fails: it runs `d = max_retry - attempt`
more transfers and is left with the bytes of the last one. -/
theorem retry_loop_all_fail (curl : Curl) (url : String) (max_retry timeout : Int)
    (d bound : Nat) (attempt : Int) (readBuffer : String) (performed : Nat)
    (hb : d ≤ bound) (hd : attempt + d = max_retry)
    (hfail : ∀ i, i < d → (curl.perform url timeout (performed + i)).ok = false) :
    retry_loop curl url max_retry timeout bound attempt readBuffer performed =
      ⟨if d = 0 then readBuffer else (curl.perform url timeout (performed + d - 1)).delivered,
       performed + d⟩ := by
  induction d generalizing bound attempt readBuffer performed with
  | zero =>
    have : ¬ attempt < max_retry := by simp at hd; omega
    cases bound <;> simp [retry_loop, this]
  | succ d ih =>
    obtain ⟨b, rfl⟩ : ∃ b, bound = b + 1 := ⟨bound - 1, by omega⟩
    rw [retry_loop]
    have hlt : attempt < max_retry := by push_cast at hd; omega
    have h0 := hfail 0 (by omega)
    simp only [hlt, if_true, curl_easy_perform_cleared, Nat.add_zero] at h0 ⊢
    simp only [h0]
    rw [ih b (attempt + 1) _ (performed + 1) (by omega) (by push_cast at hd; omega)
      (fun i hi => by have := hfail (i + 1) (by omega); rwa [show performed + 1 + i = performed + (i + 1) by omega])]
    by_cases hd0 : d = 0
    · subst hd0; simp
    · simp [hd0, show performed + 1 + d - 1 = performed + (d + 1) - 1 by omega,
        show performed + 1 + d = performed + (d + 1) by omega]

/-- The loop when the transfer `j` steps ahead is the first to succeed. -/
theorem retry_loop_first_success (curl : Curl) (url : String) (max_retry timeout : Int)
    (j bound : Nat) (attempt : Int) (readBuffer : String) (performed : Nat)
    (hb : j < bound) (hj : attempt + j < max_retry)
    (hfail : ∀ i, i < j → (curl.perform url timeout (performed + i)).ok = false)
    (hok : (curl.perform url timeout (performed + j)).ok = true) :
    retry_loop curl url max_retry timeout bound attempt readBuffer performed =
      ⟨(curl.perform url timeout (performed + j)).delivered, performed + j + 1⟩ := by
  induction j generalizing bound attempt readBuffer performed with
  | zero =>
    obtain ⟨b, rfl⟩ : ∃ b, bound = b + 1 := ⟨bound - 1, by omega⟩
    rw [retry_loop]
    have hlt : attempt < max_retry := by simpa using hj
    simp only [Nat.add_zero] at hok
    simp [hlt, curl_easy_perform_cleared, hok]
  | succ j ih =>
    obtain ⟨b, rfl⟩ : ∃ b, bound = b + 1 := ⟨bound - 1, by omega⟩
    rw [retry_loop]
    have hlt : attempt < max_retry := by push_cast at hj; omega
    have h0 := hfail 0 (by omega)
    simp only [Nat.add_zero] at h0
    simp only [hlt, if_true, curl_easy_perform_cleared, h0]
    rw [ih b (attempt + 1) _ (performed + 1) (by omega) (by push_cast at hj; omega)
      (fun i hi => by have := hfail (i + 1) (by omega); rwa [show performed + 1 + i = performed + (i + 1) by omega])
      (by rwa [show performed + 1 + j = performed + (j + 1) by omega])]
    simp [show performed + 1 + j = performed + (j + 1) by omega]

/-- C1 (what the code does): for a positive `max_retry = n` and a connection
whose every transfer fails, `http_get_with_retry` makes exactly `n` attempts,
and the string it returns is whatever the last failed transfer delivered to the
write callback: `readBuffer` is cleared before each attempt, not after the last
one.  The result is empty only if that last transfer delivered nothing. -/
theorem C1_exhausted_retries_return_last_delivery (curl : Curl) (url : String)
    (n timeout : Int) (hinit : curl.init_ok = true) (hn : 0 < n)
    (hfail : ∀ i : Nat, (i : Int) < n → (curl.perform url timeout i).ok = false) :
    (http_get_with_retry curl url n timeout).attempts = n.toNat ∧
    (http_get_with_retry curl url n timeout).body =
      (curl.perform url timeout (n.toNat - 1)).delivered := by
  have hloop := retry_loop_all_fail curl url n timeout n.toNat n.toNat 0 "" 0 (le_refl _)
    (by rw [Int.toNat_of_nonneg (le_of_lt hn)]; simp)
    (fun i hi => by
      rw [Nat.zero_add]
      exact hfail i (by omega))
  have hpos : n.toNat ≠ 0 := by omega
  simp only [http_get_with_retry, hinit, not_true_eq_false, if_false, hloop, hpos,
    Nat.zero_add, and_self]

/-- C1 at the failing input: three attempts, all broken off after the first
bytes; three attempts are made and those bytes, not the empty string, come
back. -/
theorem C1_exhausted_retries_witness :
    (http_get_with_retry stallingCurl "https://api.binance.com/api/v3/klines" 3 10).attempts = 3 ∧
    (http_get_with_retry stallingCurl "https://api.binance.com/api/v3/klines" 3 10).body
      = "[[1704067200000," ∧
    (http_get_with_retry stallingCurl "https://api.binance.com/api/v3/klines" 3 10).body ≠ "" := by
  have h := C1_exhausted_retries_return_last_delivery stallingCurl
    "https://api.binance.com/api/v3/klines" 3 10 rfl (by decide) (fun _ _ => rfl)
  have hb : (stallingCurl.perform "https://api.binance.com/api/v3/klines" 10
      ((3 : Int).toNat - 1)).delivered = "[[1704067200000," := by decide
  refine ⟨h.1, h.2.trans hb, ?_⟩
  rw [h.2, hb]
  decide

/-- C2: for a positive `max_retry = n` and a connection whose first successful
transfer is attempt `k ≤ n` (attempts `1 .. k-1` fail, whatever they deliver),
`http_get_with_retry` makes exactly `k` attempts and returns exactly the bytes
delivered during attempt `k`. -/
theorem C2_first_success_returns_its_body (curl : Curl) (url : String)
    (n timeout : Int) (k : Nat) (hinit : curl.init_ok = true)
    (hk : 1 ≤ k) (hkn : (k : Int) ≤ n)
    (hfail : ∀ i : Nat, i + 1 < k → (curl.perform url timeout i).ok = false)
    (hok : (curl.perform url timeout (k - 1)).ok = true) :
    http_get_with_retry curl url n timeout =
      ⟨(curl.perform url timeout (k - 1)).delivered, k⟩ := by
  have hloop := retry_loop_first_success curl url n timeout (k - 1) n.toNat 0 "" 0
    (by omega) (by omega)
    (fun i hi => by
      rw [Nat.zero_add]
      exact hfail i (by omega))
    (by rwa [Nat.zero_add])
  simp only [http_get_with_retry, hinit, not_true_eq_false, if_false, hloop, Nat.zero_add,
    Nat.sub_add_cancel hk]

/-- C2 at a concrete input: two failed transfers that delivered an error page,
then a successful one; three attempts, and only the third body is returned. -/
theorem C2_first_success_witness :
    http_get_with_retry flakyCurl "https://api.binance.com/api/v3/klines" 5 10 =
      ⟨"[[1,2],[3,4]]", 3⟩ := by
  have h := C2_first_success_returns_its_body flakyCurl
    "https://api.binance.com/api/v3/klines" 5 10 3 rfl (by decide) (by decide)
    (fun i hi => by
      have : i < 2 := by omega
      simp [flakyCurl, this])
    (by decide)
  rw [h]
  decide


/-! ## The calendar computation of `gmtime` -/

theorem era_day_bounds (doe yoe doy : Int) (h0 : 0 ≤ doe) (h1 : doe < 146097)
    (hyoe : yoe = (doe - doe / 1460 + doe / 36524 - doe / 146096) / 365)
    (hdoy : doy = doe - (365 * yoe + yoe / 4 - yoe / 100)) :
    0 ≤ yoe ∧ yoe ≤ 399 ∧ 0 ≤ doy ∧ doy ≤ 365 ∧
    (doy = 365 → yoe % 4 = 3 ∧ (yoe % 100 ≠ 99 ∨ yoe = 399)) := by
  have hi : 0 ≤ doe / 36524 ∧ doe / 36524 ≤ 4 := by omega
  have hf : 0 ≤ doe / 146096 ∧ doe / 146096 ≤ 1 := by omega
  obtain ⟨hi0, hi4⟩ := hi
  obtain ⟨hf0, hf4⟩ := hf
  generalize hiv : doe / 36524 = i at *
  generalize hfv : doe / 146096 = f at *
  have hd : 0 ≤ yoe / 100 ∧ yoe / 100 ≤ 4 := by omega
  obtain ⟨hd0, hd4⟩ := hd
  generalize hdv : yoe / 100 = d at *
  interval_cases i <;> interval_cases f <;> interval_cases d <;> omega

theorem days_before_month_table (y m : Int) (h1 : 1 ≤ m) (h12 : m ≤ 12) :
    days_before_month y m =
      (if m ≤ 2 then 0 else if is_leap y then 1 else 0) +
      (if m = 1 then 0 else if m = 2 then 31 else if m = 3 then 59 else if m = 4 then 90
       else if m = 5 then 120 else if m = 6 then 151 else if m = 7 then 181
       else if m = 8 then 212 else if m = 9 then 243 else if m = 10 then 273
       else if m = 11 then 304 else 334) := by
  interval_cases m <;> simp [days_before_month, days_in_month, List.range_succ] <;>
    split_ifs <;> omega

theorem leap_step (y : Int) :
    (y / 4 - y / 100 + y / 400) - ((y - 1) / 4 - (y - 1) / 100 + (y - 1) / 400) =
      if is_leap y then 1 else 0 := by
  unfold is_leap
  split_ifs <;> omega

theorem days_before_year_succ (y : Int) :
    days_before_year (y + 1) = days_before_year y + 365 + if is_leap y then 1 else 0 := by
  have h := leap_step y
  unfold days_before_year
  rw [← h, show y + 1 - 1 = y by ring]
  ring

theorem leaps_of_era (era yoe : Int) (hy0 : 0 ≤ yoe) (hy399 : yoe ≤ 399) :
    (yoe + era * 400) / 4 - (yoe + era * 400) / 100 + (yoe + era * 400) / 400 =
      97 * era + yoe / 4 - yoe / 100 := by
  omega

theorem march_first (era yoe : Int) (hy0 : 0 ≤ yoe) (hy399 : yoe ≤ 399) :
    146097 * era + (365 * yoe + yoe / 4 - yoe / 100) - 719468 =
      days_before_year (yoe + era * 400) + 59 +
        if is_leap (yoe + era * 400) then 1 else 0 := by
  have h1 := leap_step (yoe + era * 400)
  have h2 := leaps_of_era era yoe hy0 hy399
  unfold days_before_year
  rw [← h1]
  omega

theorem leap_of_last_day (era yoe : Int)
    (h : yoe % 4 = 3 ∧ (yoe % 100 ≠ 99 ∨ yoe = 399)) : is_leap (yoe + era * 400 + 1) := by
  unfold is_leap
  omega

theorem civil_sum (days era doe yoe doy mp d m y : Int)
    (hz : days + 719468 = 146097 * era + doe)
    (hy0 : 0 ≤ yoe) (hy399 : yoe ≤ 399) (hdoy0 : 0 ≤ doy) (hdoy365 : doy ≤ 365)
    (hleap : doy = 365 → yoe % 4 = 3 ∧ (yoe % 100 ≠ 99 ∨ yoe = 399))
    (hdoy : doy = doe - (365 * yoe + yoe / 4 - yoe / 100))
    (hmp : mp = (5 * doy + 2) / 153)
    (hd : d = doy - (153 * mp + 2) / 5 + 1)
    (hm : m = if mp < 10 then mp + 3 else mp - 9)
    (hy : y = yoe + era * 400 + (if m ≤ 2 then 1 else 0)) :
    1 ≤ m ∧ m ≤ 12 ∧ 1 ≤ d ∧ d ≤ days_in_month y m ∧
    days_before_year y + days_before_month y m + (d - 1) = days := by
  have hmpb : 0 ≤ mp ∧ mp ≤ 11 := by omega
  obtain ⟨hmp0, hmp11⟩ := hmpb
  have hm1 : 1 ≤ m ∧ m ≤ 12 := by split_ifs at hm <;> omega
  have hmar := march_first era yoe hy0 hy399
  have hsucc := days_before_year_succ (yoe + era * 400)
  have hdays : days = days_before_year (yoe + era * 400) + 59 +
      (if is_leap (yoe + era * 400) then 1 else 0) + doy := by omega
  clear hmar hz hdoy
  rw [days_before_month_table y m hm1.1 hm1.2]
  by_cases hlt : mp < 10
  · -- March to December: the civil year is the March-based year
    rw [if_pos hlt] at hm
    have hyv : y = yoe + era * 400 := by
      rw [hy, if_neg (by omega)]; ring
    subst hyv
    generalize days_before_year (yoe + era * 400) = B at *
    generalize hL : (if is_leap (yoe + era * 400) then (1 : Int) else 0) = L at *
    have hL01 : 0 ≤ L ∧ L ≤ 1 := by subst hL; split_ifs <;> omega
    clear hy hsucc hleap
    interval_cases mp <;> norm_num at hm <;> subst hm <;>
      norm_num [days_in_month] <;> omega
  · -- January and February belong to the next civil year
    rw [if_neg hlt] at hm
    have hyv : y = yoe + era * 400 + 1 := by
      rw [hy, if_pos (by omega)]
    have hfeb : doy = 365 → is_leap y := fun h => by
      rw [hyv]; exact leap_of_last_day era yoe (hleap h)
    subst hyv
    generalize days_before_year (yoe + era * 400 + 1) = A at *
    generalize days_before_year (yoe + era * 400) = B at *
    generalize hL : (if is_leap (yoe + era * 400) then (1 : Int) else 0) = L at *
    clear hy hleap
    have hmp' : mp = 10 ∨ mp = 11 := by omega
    rcases hmp' with h | h <;> subst h <;> norm_num at hm <;> subst hm <;>
      norm_num [days_in_month]
    · omega
    · by_cases hl : is_leap (yoe + era * 400 + 1)
      · simp only [hl, if_true]; omega
      · simp only [hl, if_false]
        have : doy ≠ 365 := fun h => hl (hfeb h)
        omega


/-- The model `gmtime` is the inverse of counting seconds on the UTC calendar: its fields
form a valid date and time of day, and that date and time lie exactly `t`
seconds after 1970-01-01 00:00:00. -/
theorem gmtime_spec (t : Int) :
    valid_civil ((gmtime t).tm_year + 1900) ((gmtime t).tm_mon + 1) (gmtime t).tm_mday
      (gmtime t).tm_hour (gmtime t).tm_min (gmtime t).tm_sec ∧
    utc_seconds ((gmtime t).tm_year + 1900) ((gmtime t).tm_mon + 1) (gmtime t).tm_mday
      (gmtime t).tm_hour (gmtime t).tm_min (gmtime t).tm_sec = t := by
  obtain ⟨hy0, hy399, hdoy0, hdoy365, hleap⟩ :=
    era_day_bounds ((t / 86400 + 719468) % 146097) _ _ (by omega) (by omega) rfl rfl
  obtain ⟨hm1, hm12, hd1, hdm, hsum⟩ :=
    civil_sum (t / 86400) ((t / 86400 + 719468) / 146097) ((t / 86400 + 719468) % 146097)
      _ _ _ _ _ _ (by omega) hy0 hy399 hdoy0 hdoy365 hleap rfl rfl rfl rfl rfl
  simp only [gmtime, valid_civil, utc_seconds]
  simp only [show ∀ a : Int, a - 1 + 1 = a from fun a => by ring,
    show ∀ a : Int, a - 1900 + 1900 = a from fun a => by ring]
  refine ⟨⟨hm1, hm12, hd1, hdm, ?_, ?_, ?_, ?_, ?_, ?_⟩, ?_⟩
  · omega
  · omega
  · omega
  · omega
  · omega
  · omega
  · rw [hsum]; omega

theorem day_of_year_bounds (y m d : Int) (hm1 : 1 ≤ m) (hm12 : m ≤ 12) (hd1 : 1 ≤ d)
    (hd : d ≤ days_in_month y m) :
    0 ≤ days_before_month y m + (d - 1) ∧
    days_before_year y + days_before_month y m + (d - 1) < days_before_year (y + 1) := by
  rw [days_before_year_succ, days_before_month_table y m hm1 hm12]
  generalize days_before_year y = B
  unfold days_in_month at hd
  generalize hL : (if is_leap y then (1 : Int) else 0) = L at *
  have hL01 : 0 ≤ L ∧ L ≤ 1 := by subst hL; split_ifs <;> omega
  have h29 : (if is_leap y then (29 : Int) else 28) = 28 + L := by
    subst hL; split_ifs <;> rfl
  rw [h29] at hd
  clear hL h29
  interval_cases m <;> norm_num at hd ⊢ <;> omega

theorem days_before_year_mono (y : Int) (hy : y ≤ 1969) : days_before_year (y + 1) ≤ 0 := by
  unfold days_before_year
  omega

theorem days_before_year_large (y : Int) (hy : 10000 ≤ y) : 2932897 ≤ days_before_year y := by
  unfold days_before_year
  omega

/-- Time stamps from 1970-01-01 00:00:00 to 9999-12-31 23:59:59 have a year
from 1970 to 9999. -/
theorem gmtime_year_range (t : Int) (h0 : 0 ≤ t) (h1 : t ≤ max_time_stamp) :
    1970 ≤ (gmtime t).tm_year + 1900 ∧ (gmtime t).tm_year + 1900 ≤ 9999 := by
  obtain ⟨⟨hm1, hm12, hd1, hd, hh0, hh1, hmi0, hmi1, hs0, hs1⟩, hsum⟩ := gmtime_spec t
  obtain ⟨hb0, hb1⟩ := day_of_year_bounds _ _ _ hm1 hm12 hd1 hd
  unfold utc_seconds at hsum
  unfold max_time_stamp at h1
  generalize (gmtime t).tm_year + 1900 = y at *
  generalize days_before_month y ((gmtime t).tm_mon + 1) = M at *
  constructor
  · by_contra hlt
    have := days_before_year_mono y (by omega)
    omega
  · by_contra hgt
    have := days_before_year_large y (by omega)
    omega

/-! ## Text of dates -/

theorem strftime_chars_datetime (tm : Tm) :
    strftime_chars "%Y-%m-%d %H:%M:%S".data tm =
      yearDigits (tm.tm_year + 1900) ++ '-' :: twoDigits (tm.tm_mon + 1) ++ '-' ::
        twoDigits tm.tm_mday ++ ' ' :: twoDigits tm.tm_hour ++ ':' :: twoDigits tm.tm_min ++
        ':' :: twoDigits tm.tm_sec := by
  simp [twoDigits]
  rfl

theorem strftime_chars_date (tm : Tm) :
    strftime_chars "%Y-%m-%d".data tm =
      yearDigits (tm.tm_year + 1900) ++ '-' :: twoDigits (tm.tm_mon + 1) ++ '-' ::
        twoDigits tm.tm_mday := by
  simp [twoDigits]
  rfl

theorem nat_digitChar (k : Nat) (hk : k < 10) : Nat.digitChar k = Char.ofNat (48 + k) := by
  interval_cases k <;> rfl

theorem yearDigits_eq_four (y : Int) (h1 : 1000 ≤ y) (h2 : y ≤ 9999) :
    yearDigits y = fourDigits y := by
  obtain ⟨n, rfl⟩ := Int.eq_ofNat_of_zero_le (by omega : 0 ≤ y)
  have hn1 : 1000 ≤ n := by omega
  have hn2 : n ≤ 9999 := by omega
  have hrepr : yearDigits (n : Int) = Nat.toDigits 10 n := rfl
  rw [hrepr]
  obtain ⟨k, rfl⟩ : ∃ k, n = k + 3 := ⟨n - 3, by omega⟩
  have e1 : (k + 3) / 10 ≠ 0 := by omega
  have e2 : (k + 3) / 10 / 10 ≠ 0 := by omega
  have e3 : (k + 3) / 10 / 10 / 10 ≠ 0 := by omega
  have e4 : (k + 3) / 10 / 10 / 10 / 10 = 0 := by omega
  simp only [Nat.toDigits, Nat.toDigitsCore, e1, e2, e3, e4, if_true, if_false, fourDigits,
    digitChar]
  rw [nat_digitChar _ (Nat.mod_lt _ (by decide)), nat_digitChar _ (Nat.mod_lt _ (by decide)),
    nat_digitChar _ (Nat.mod_lt _ (by decide)), nat_digitChar _ (Nat.mod_lt _ (by decide))]
  have a1 : (((k + 3 : Nat) : Int) / 1000 % 10).toNat = (k + 3) / 10 / 10 / 10 % 10 := by omega
  have a2 : (((k + 3 : Nat) : Int) / 100 % 10).toNat = (k + 3) / 10 / 10 % 10 := by omega
  have a3 : (((k + 3 : Nat) : Int) / 10 % 10).toNat = (k + 3) / 10 % 10 := by omega
  have a4 : (((k + 3 : Nat) : Int) % 10).toNat = (k + 3) % 10 := by omega
  rw [a1, a2, a3, a4]

/-! ## `parse_klines` -/

theorem wrapLL_of_inLL (x : Int) (h : inLL x) : wrapLL x = x := by
  unfold inLL at h
  unfold wrapLL wrapBits
  norm_num at h ⊢
  omega

theorem wrapLL_inLL (x : Int) : inLL (wrapLL x) := by
  unfold inLL wrapLL wrapBits
  norm_num
  omega

theorem wrapInt_of_range (x : Int) (h0 : -(2 : Int) ^ 31 ≤ x) (h1 : x < (2 : Int) ^ 31) :
    wrapInt x = x := by
  unfold wrapInt wrapBits
  norm_num at h0 h1 ⊢
  omega

theorem parse_loop_none {F : Type} (lib : Lib F) (symbol freq : String)
    (items : List (Json F)) (klines : List (KLine F)) (item : Json F) (hmem : item ∈ items)
    (hnone : parse_item lib symbol freq item = none) :
    parse_loop lib symbol freq items klines = none := by
  induction items generalizing klines with
  | nil => cases hmem
  | cons x rest ih =>
    rw [parse_loop]
    rcases List.mem_cons.mp hmem with h | h
    · subst h; rw [hnone]
    · cases hx : parse_item lib symbol freq x with
      | none => rfl
      | some k => exact ih _ h

theorem parse_loop_some {F : Type} (lib : Lib F) (symbol freq : String)
    (items : List (Json F)) (klines out : List (KLine F))
    (h : parse_loop lib symbol freq items klines = some out) :
    ∃ ks, out = klines ++ ks ∧
      List.Forall₂ (fun item k => parse_item lib symbol freq item = some k) items ks := by
  induction items generalizing klines with
  | nil =>
    rw [parse_loop] at h
    exact ⟨[], by simpa using (Option.some.inj h).symm, List.Forall₂.nil⟩
  | cons x rest ih =>
    rw [parse_loop] at h
    cases hx : parse_item lib symbol freq x with
    | none => rw [hx] at h; cases h
    | some k =>
      rw [hx] at h
      obtain ⟨ks, hout, hall⟩ := ih _ h
      exact ⟨k :: ks, by rw [hout, List.append_assoc]; rfl, List.Forall₂.cons hx hall⟩

theorem parse_loop_of_forall₂ {F : Type} (lib : Lib F) (symbol freq : String)
    (items : List (Json F)) (klines ks : List (KLine F))
    (h : List.Forall₂ (fun item k => parse_item lib symbol freq item = some k) items ks) :
    parse_loop lib symbol freq items klines = some (klines ++ ks) := by
  induction h generalizing klines with
  | nil => simp [parse_loop]
  | cons hx _ ih => rw [parse_loop, hx]; simp only []; rw [ih]; simp

/-- What `parse_klines` returns, in terms of the loop body. -/
theorem parse_klines_cases {F : Type} (lib : Lib F) (symbol json_str freq : String) :
    parse_klines lib symbol json_str freq = [] ∨
    ∃ j, lib.json_parse json_str = some j ∧
      List.Forall₂ (fun item k => parse_item lib symbol freq item = some k) j.items
        (parse_klines lib symbol json_str freq) := by
  cases hj : lib.json_parse json_str with
  | none => left; simp [parse_klines, hj]
  | some j =>
    cases hl : parse_loop lib symbol freq j.items [] with
    | none => left; simp [parse_klines, hj, hl]
    | some out =>
      obtain ⟨ks, hout, hall⟩ := parse_loop_some lib symbol freq _ _ _ hl
      have hval : parse_klines lib symbol json_str freq = ks := by
        simp [parse_klines, hj, hl, hout]
      right
      rw [hval]
      exact ⟨j, rfl, hall⟩

theorem index_of_field_none {F : Type} (item : Json F) (idx : Nat)
    (h : item.field idx = none) :
    item.index idx = none ∨ item.index idx = some .null := by
  cases item with
  | array elems =>
    right
    simp only [Json.field] at h
    simp only [Json.index]
    rw [List.getD_eq_getElem?_getD, ← List.get?_eq_getElem?, h]
    rfl
  | null => right; rfl
  | boolean b => left; rfl
  | number_integer i => left; rfl
  | number_unsigned n => left; rfl
  | number_float x => left; rfl
  | string s => left; rfl
  | object members => left; rfl

theorem index_of_field_some {F : Type} (item : Json F) (idx : Nat) (v : Json F)
    (h : item.field idx = some v) : item.index idx = some v := by
  cases item with
  | array elems =>
    simp only [Json.field] at h
    simp only [Json.index]
    rw [List.getD_eq_getElem?_getD, ← List.get?_eq_getElem?, h]
    rfl
  | null => cases h
  | boolean b => cases h
  | number_integer i => cases h
  | number_unsigned n => cases h
  | number_float x => cases h
  | string s => cases h
  | object members => cases h

/-- A record that lacks an expected position or holds an unparseable value
there makes the loop body throw. -/
theorem parse_item_bad {F : Type} (lib : Lib F) (symbol freq : String) (item : Json F)
    (hbad : BadRecord lib item) : parse_item lib symbol freq item = none := by
  obtain ⟨idx, hidx, hcase⟩ := hbad
  have hfield : (idx = 0 ∧ field_long_long lib item 0 = none) ∨
      (idx ∈ [1, 2, 3, 4, 5, 7] ∧ field_double lib item idx = none) ∨
      (idx = 8 ∧ field_int lib item 8 = none) := by
    rcases hcase with hmiss | ⟨v, hv, hun⟩
    · have hix := index_of_field_none item idx hmiss
      simp only [expected_positions, List.mem_cons, List.mem_singleton, List.not_mem_nil,
        or_false] at hidx
      rcases hidx with h | h | h | h | h | h | h | h <;> subst h <;>
        rcases hix with hix | hix <;>
        simp [field_long_long, field_double, field_int, hix, Json.get_long_long,
          Json.get_string, Json.get_int]
    · have hix := index_of_field_some item idx v hv
      rcases hun with ⟨h0, hc⟩ | ⟨hm, hc⟩ | ⟨h8, hc⟩
      · subst h0; left; exact ⟨rfl, by simp [field_long_long, hix, hc]⟩
      · right; left; exact ⟨hm, by simp [field_double, hix, hc]⟩
      · subst h8; right; right; exact ⟨rfl, by simp [field_int, hix, hc]⟩
  unfold parse_item
  rcases hfield with ⟨_, h⟩ | ⟨hm, h⟩ | ⟨_, h⟩
  · simp [h]
  · simp only [List.mem_cons, List.mem_singleton, List.not_mem_nil, or_false] at hm
    rcases hm with hi | hi | hi | hi | hi | hi <;> subst hi <;> simp [h]
  · simp [h]

theorem forall₂_exists_of_mem {α β : Type} (R : α → β → Prop) (l₁ : List α) (l₂ : List β)
    (h : List.Forall₂ R l₁ l₂) (a : α) (ha : a ∈ l₁) : ∃ b, b ∈ l₂ ∧ R a b := by
  induction h with
  | nil => cases ha
  | cons hab _ ih =>
    rcases List.mem_cons.mp ha with rfl | hmem
    · exact ⟨_, List.mem_cons_self _ _, hab⟩
    · obtain ⟨b, hb, hr⟩ := ih hmem
      exact ⟨b, List.mem_cons_of_mem _ hb, hr⟩

/-- C3: `parse_klines` is all-or-nothing.  A payload that is not valid JSON, or
in which some record lacks one of the expected positions (such as `[8]`, the
trade count) or holds there a value not parseable as the expected type, gives
the empty sequence, whatever the other records are.  And in every case the
result is either empty or has one record for each element of the payload, none
of them bad: never a partial page. -/
theorem C3_parse_klines_all_or_nothing {F : Type} (lib : Lib F)
    (symbol json_str freq : String) :
    (lib.json_parse json_str = none → parse_klines lib symbol json_str freq = []) ∧
    (∀ j, lib.json_parse json_str = some j → (∃ item ∈ j.items, BadRecord lib item) →
      parse_klines lib symbol json_str freq = []) ∧
    (parse_klines lib symbol json_str freq = [] ∨
      ∃ j, lib.json_parse json_str = some j ∧
        (parse_klines lib symbol json_str freq).length = j.items.length ∧
        ∀ item ∈ j.items, ¬ BadRecord lib item) := by
  refine ⟨fun h => by simp [parse_klines, h], fun j hj ⟨item, hmem, hbad⟩ => ?_, ?_⟩
  · have hnone := parse_loop_none lib symbol freq j.items [] item hmem
      (parse_item_bad lib symbol freq item hbad)
    simp [parse_klines, hj, hnone]
  · rcases parse_klines_cases lib symbol json_str freq with h | ⟨j, hj, hall⟩
    · exact Or.inl h
    · refine Or.inr ⟨j, hj, hall.length_eq.symm, fun item hmem hbad => ?_⟩
      have hnone := parse_item_bad lib symbol freq item hbad
      obtain ⟨k, _, hk⟩ := forall₂_exists_of_mem _ _ _ hall item hmem
      rw [hnone] at hk
      cases hk

set_option maxRecDepth 100000 in
/-- C3 at a concrete payload: two records, the second ending before the trade
count; nothing is returned, although the first record is well formed. -/
theorem C3_parse_klines_witness :
    (∃ j, miniLib.json_parse page_short_record = some j ∧ ∃ item ∈ j.items, BadRecord miniLib item) ∧
    parse_klines miniLib "ETHBTC" page_short_record "1h" = [] ∧
    (parse_klines miniLib "ETHBTC" page_two_hours "1h").length = 2 := by
  have hj : miniLib.json_parse page_short_record = some (.array
      [.array [.number_unsigned 1704067200000, .string "0.05400", .string "0.05420",
        .string "0.05390", .string "0.05410", .string "1234.5", .number_unsigned 1704070799999,
        .string "66.7", .number_unsigned 321, .string "600.1", .string "32.4", .string "0"],
       .array [.number_unsigned 1704070800000, .string "0.05410", .string "0.05450",
        .string "0.05400", .string "0.05440", .string "987.6", .number_unsigned 1704074399999,
        .string "53.5"]]) := by rfl
  have hbad : ∃ item ∈ (Json.array
      [.array [.number_unsigned 1704067200000, .string "0.05400", .string "0.05420",
        .string "0.05390", .string "0.05410", .string "1234.5", .number_unsigned 1704070799999,
        .string "66.7", .number_unsigned 321, .string "600.1", .string "32.4", .string "0"],
       .array [.number_unsigned 1704070800000, .string "0.05410", .string "0.05450",
        .string "0.05400", .string "0.05440", .string "987.6", .number_unsigned 1704074399999,
        .string "53.5"]] : Json Decimal).items, BadRecord miniLib item :=
    ⟨_, List.mem_cons_of_mem _ (List.mem_cons_self _ _), 8, by decide, Or.inl rfl⟩
  exact ⟨⟨_, hj, hbad⟩,
    (C3_parse_klines_all_or_nothing miniLib "ETHBTC" page_short_record "1h").2.1 _ hj hbad,
    by decide⟩

/-- The `datetime` and `date` texts of a time stamp in the years 1970 to 9999. -/
theorem buf_after_strftime_in_range {F : Type} (lib : Lib F) (t : Int) (h0 : 0 ≤ t)
    (h1 : t ≤ max_time_stamp) :
    buf_after_strftime lib "%Y-%m-%d %H:%M:%S" (gmtime t) =
      datetime_text ((gmtime t).tm_year + 1900) ((gmtime t).tm_mon + 1) (gmtime t).tm_mday
        (gmtime t).tm_hour (gmtime t).tm_min (gmtime t).tm_sec ∧
    (buf_after_strftime lib "%Y-%m-%d" (gmtime t)).data =
      (buf_after_strftime lib "%Y-%m-%d %H:%M:%S" (gmtime t)).data.take 10 := by
  obtain ⟨hy0, hy1⟩ := gmtime_year_range t h0 h1
  have hY := yearDigits_eq_four _ (by omega : (1000 : Int) ≤ (gmtime t).tm_year + 1900) hy1
  unfold buf_after_strftime strftime
  rw [strftime_chars_datetime, strftime_chars_date, hY]
  simp [fourDigits, twoDigits, datetime_text]

/-- The loop body on a well-formed wire record. -/
theorem parse_item_wire {F : Type} (lib : Lib F) (symbol freq : String) (w : WireRecord F)
    (hwf : w.WellFormed lib) :
    ∃ k, parse_item lib symbol freq w.toJson = some k ∧ Renders lib symbol freq w k := by
  obtain ⟨ho, hh, hl, hc, hv, hq, hts, htr⟩ := hwf
  obtain ⟨o, ho⟩ := Option.isSome_iff_exists.mp ho
  obtain ⟨h, hh⟩ := Option.isSome_iff_exists.mp hh
  obtain ⟨l, hl⟩ := Option.isSome_iff_exists.mp hl
  obtain ⟨c, hc⟩ := Option.isSome_iff_exists.mp hc
  obtain ⟨v, hv⟩ := Option.isSome_iff_exists.mp hv
  obtain ⟨q, hq⟩ := Option.isSome_iff_exists.mp hq
  unfold max_time_stamp at hts
  have hms : wrapLL (w.open_time : Int) = w.open_time :=
    wrapLL_of_inLL _ (by unfold inLL; norm_num; omega)
  have htrade : wrapInt (w.trades : Int) = w.trades :=
    wrapInt_of_range _ (by norm_num; omega) (by norm_num; omega)
  have hdiv : Int.tdiv (w.open_time : Int) 1000 = (w.open_time : Int) / 1000 :=
    Int.tdiv_eq_ediv (by omega) (by norm_num)
  have h0 : (0 : Int) ≤ (w.open_time : Int) / 1000 := by omega
  obtain ⟨hdt, hdate⟩ := buf_after_strftime_in_range lib _ h0 (by unfold max_time_stamp; exact hts)
  obtain ⟨hyr0, hyr1⟩ := gmtime_year_range _ h0 (by unfold max_time_stamp; exact hts)
  obtain ⟨hvalid, hsec⟩ := gmtime_spec ((w.open_time : Int) / 1000)
  refine ⟨⟨(w.open_time : Int) / 1000, "BINANCE." ++ symbol, o, h, l, c, v, q, w.trades,
    freq_map_at freq, buf_after_strftime lib "%Y-%m-%d %H:%M:%S" (gmtime ((w.open_time : Int) / 1000)),
    buf_after_strftime lib "%Y-%m-%d" (gmtime ((w.open_time : Int) / 1000)),
    (w.open_time : Int) / 1000⟩, ?_, ?_⟩
  · simp only [parse_item, field_long_long, field_double, field_int, WireRecord.toJson,
      Json.index, Json.get_long_long, Json.get_string, Json.get_int, List.cons_append,
      List.nil_append, List.getD_cons_zero, List.getD_cons_succ, Option.bind_some, Option.some_bind,
      Option.bind_eq_bind, ho, hh, hl, hc, hv, hq, hms, htrade, hdiv, bind_pure_comp, Option.map_some',
      Option.pure_def, Option.map_eq_map]
  · exact ⟨rfl, rfl, rfl, rfl, rfl, ho, hh, hl, hc, hv, hq,
      ⟨_, _, _, _, _, _, hyr0, hyr1, hvalid, hsec, hdt⟩, hdate⟩

/-- C4: a well-formed payload of `n` wire records (open times in the years 1970
to 9999) is parsed into exactly `n` records, in wire order; record `i` has
`time_stamp` = open time of wire record `i` divided by 1000, `date_stamp` =
`time_stamp`, `symbol` = `"BINANCE."` followed by the requested symbol, `trade`
= wire field `[8]`, `type` = the label of the interval in `freq_map`, the six
prices and volumes as `std::stod` reads them, `datetime` = the text
`YYYY-MM-DD HH:MM:SS` of the UTC date and time that lies `time_stamp` seconds
after 1970-01-01 00:00:00, and `date` = the first 10 characters of `datetime`. -/
theorem C4_parse_klines_well_formed {F : Type} (lib : Lib F) (symbol json_str freq : String)
    (ws : List (WireRecord F))
    (hparse : lib.json_parse json_str = some (.array (ws.map WireRecord.toJson)))
    (hwf : ∀ w ∈ ws, w.WellFormed lib) :
    (parse_klines lib symbol json_str freq).length = ws.length ∧
    List.Forall₂ (Renders lib symbol freq) ws (parse_klines lib symbol json_str freq) := by
  have hkey : ∃ ks, List.Forall₂ (fun item k => parse_item lib symbol freq item = some k)
      (ws.map WireRecord.toJson) ks ∧ List.Forall₂ (Renders lib symbol freq) ws ks := by
    clear hparse
    induction ws with
    | nil => exact ⟨[], List.Forall₂.nil, List.Forall₂.nil⟩
    | cons w rest ih =>
      obtain ⟨k, hk, hr⟩ := parse_item_wire lib symbol freq w (hwf w (List.mem_cons_self _ _))
      obtain ⟨ks, hks, hrs⟩ := ih (fun w' hw' => hwf w' (List.mem_cons_of_mem _ hw'))
      exact ⟨k :: ks, List.Forall₂.cons hk hks, List.Forall₂.cons hr hrs⟩
  obtain ⟨ks, hitems, hrend⟩ := hkey
  have hloop := parse_loop_of_forall₂ lib symbol freq _ [] ks hitems
  have hval : parse_klines lib symbol json_str freq = ks := by
    simp [parse_klines, hparse, Json.items, hloop]
  rw [hval]
  exact ⟨hrend.length_eq.symm, hrend⟩

set_option maxRecDepth 100000 in
/-- C4 at the two-record page of 2024-01-01, interval `"1h"`: two records, with
the time stamps, symbol, label and texts the contract names. -/
theorem C4_parse_klines_witness :
    (parse_klines miniLib "ETHBTC" page_two_hours "1h").length = 2 ∧
    List.Forall₂ (Renders miniLib "ETHBTC" "1h") [wire_hour0, wire_hour1]
      (parse_klines miniLib "ETHBTC" page_two_hours "1h") ∧
    (parse_klines miniLib "ETHBTC" page_two_hours "1h").map
        (fun k => (k.time_stamp, k.symbol, k.type, k.datetime, k.date)) =
      [(1704067200, "BINANCE.ETHBTC", "60min", "2024-01-01 00:00:00", "2024-01-01"),
       (1704070800, "BINANCE.ETHBTC", "60min", "2024-01-01 01:00:00", "2024-01-01")] ∧
    (parse_klines miniLib "ETHBTC" page_two_hours "1h").map
        (fun k => (k.trade, k.date_stamp, k.open_, k.amount)) =
      [(321, 1704067200, ⟨5400, 5⟩, ⟨667, 1⟩), (210, 1704070800, ⟨5410, 5⟩, ⟨535, 1⟩)] := by
  have h := C4_parse_klines_well_formed miniLib "ETHBTC" page_two_hours "1h"
    [wire_hour0, wire_hour1] (by rfl)
    (by
      intro w hw
      simp only [List.mem_cons, List.mem_singleton, List.not_mem_nil, or_false] at hw
      rcases hw with rfl | rfl <;> unfold WireRecord.WellFormed <;> decide)
  exact ⟨h.1, h.2, by decide, by decide⟩

/-! ## `fetch_klines` -/

theorem get_long_long_inLL {F : Type} (lib : Lib F) (v : Json F) (x : Int)
    (h : v.get_long_long lib = some x) : inLL x := by
  cases v with
  | number_unsigned n => simp only [Json.get_long_long, Option.some.injEq] at h; subst h; exact wrapLL_inLL _
  | number_integer i => simp only [Json.get_long_long, Option.some.injEq] at h; subst h; exact wrapLL_inLL _
  | number_float y => simp only [Json.get_long_long, Option.some.injEq] at h; subst h; exact wrapLL_inLL _
  | boolean b =>
    simp only [Json.get_long_long] at h
    split_ifs at h <;> simp only [Option.some.injEq] at h <;> subst h <;>
      (unfold inLL; norm_num)
  | null => cases h
  | string s => cases h
  | array elems => cases h
  | object members => cases h

/-- A record's `time_stamp` is a `long long` divided by 1000. -/
theorem parse_item_time_stamp {F : Type} (lib : Lib F) (symbol freq : String) (item : Json F)
    (k : KLine F) (h : parse_item lib symbol freq item = some k) :
    ∃ ms, inLL ms ∧ k.time_stamp = Int.tdiv ms 1000 := by
  unfold parse_item at h
  cases hms : field_long_long lib item 0 with
  | none => simp [hms] at h
  | some ms =>
    have hin : inLL ms := by
      unfold field_long_long at hms
      cases hix : item.index 0 with
      | none => simp [hix] at hms
      | some v => rw [hix] at hms; exact get_long_long_inLL lib v ms hms
    refine ⟨ms, hin, ?_⟩
    simp only [hms, Option.bind_eq_bind, Option.some_bind, Option.bind_eq_some, bind_pure_comp,
      Option.map_eq_map, Option.map_eq_some', Option.pure_def] at h
    obtain ⟨_, _, _, _, _, _, _, _, _, _, _, _, _, _, hk⟩ := h
    rw [← Option.some.inj hk]

theorem tdiv_1000_succ_inLL (ms : Int) (h : inLL ms) :
    inLL (Int.tdiv ms 1000 + 1) := by
  unfold inLL at *
  norm_num at h ⊢
  have := Int.tdiv_eq_ediv (a := ms) (b := 1000)
  rcases le_or_lt 0 ms with h0 | h0
  · rw [Int.tdiv_eq_ediv h0 (by norm_num)]; omega
  · have hneg : Int.tdiv ms 1000 = -((-ms) / 1000) := by
      rw [← Int.tdiv_eq_ediv (by omega) (by norm_num), Int.neg_tdiv, neg_neg]
    rw [hneg]; omega

/-- Adding 1 to the `time_stamp` of a parsed record does not overflow. -/
theorem parse_klines_time_stamp_succ {F : Type} (lib : Lib F) (symbol json_str freq : String)
    (k : KLine F) (hk : k ∈ parse_klines lib symbol json_str freq) :
    addLL k.time_stamp 1 = k.time_stamp + 1 := by
  rcases parse_klines_cases lib symbol json_str freq with h | ⟨j, _, hall⟩
  · rw [h] at hk; cases hk
  · obtain ⟨item, _, hitem⟩ := forall₂_exists_of_mem _ _ _ hall.flip k hk
    obtain ⟨ms, hms, hts⟩ := parse_item_time_stamp lib symbol freq item k hitem
    rw [hts]
    exact wrapLL_of_inLL _ (tdiv_1000_succ_inLL ms hms)

theorem getLast?_mem {α : Type} (l : List α) (a : α) (h : l.getLast? = some a) : a ∈ l :=
  List.mem_of_getLast?_eq_some h

/-- The loop body, in terms of the page the response yields. -/
theorem fetch_body_eq {F σ : Type} (lib : Lib F) (net : Network) (symbol freq : String)
    (callback : Option (σ → List (KLine F) → σ)) (st : FetchState F σ) :
    fetch_body lib net symbol freq callback st =
      (match page_of lib symbol freq
          (response_at net symbol freq st.requests.length st.current_start) with
       | [] => (⟨st.all_klines, st.current_start, st.sink,
            st.requests ++ [⟨st.current_start, request_url symbol freq st.current_start,
              response_at net symbol freq st.requests.length st.current_start⟩]⟩, false)
       | k :: ks => (⟨st.all_klines ++ (k :: ks), cursor_after st.current_start (k :: ks),
            run_callback callback st.sink (k :: ks),
            st.requests ++ [⟨st.current_start, request_url symbol freq st.current_start,
              response_at net symbol freq st.requests.length st.current_start⟩]⟩, true)) := by
  unfold fetch_body page_of response_at
  by_cases hresp : (http_get_with_retry (net st.requests.length)
      (request_url symbol freq st.current_start) default_max_retry default_timeout).body = ""
  · simp [hresp]
  · simp only [hresp, if_false]
    cases hp : parse_klines lib symbol (http_get_with_retry (net st.requests.length)
      (request_url symbol freq st.current_start) default_max_retry default_timeout).body freq with
    | nil => simp
    | cons k ks =>
      obtain ⟨back, hback⟩ : ∃ back, (k :: ks).getLast? = some back :=
        ⟨(k :: ks).getLast (by simp), List.getLast?_eq_getLast _ _⟩
      have hmem : back ∈ parse_klines lib symbol (http_get_with_retry (net st.requests.length)
          (request_url symbol freq st.current_start) default_max_retry default_timeout).body
          freq := by rw [hp]; exact getLast?_mem _ _ hback
      have hadd := parse_klines_time_stamp_succ lib symbol _ freq back hmem
      simp only [hback, cursor_after, hadd]

/-- What a bounded run of the loop does, from any state: the requests it adds
to the log, the records, cursor and callback state it ends with, and how it
can end. -/
theorem fetch_loop_spec {F σ : Type} (lib : Lib F) (net : Network) (symbol freq : String)
    (end_time : Int) (callback : Option (σ → List (KLine F) → σ)) (fuel : Nat)
    (st : FetchState F σ) :
    ∃ reqs : List Request,
      (fetch_loop lib net symbol freq end_time callback fuel st).state.requests =
        st.requests ++ reqs ∧
      Logged lib net symbol freq end_time st.requests.length st.current_start reqs ∧
      (fetch_loop lib net symbol freq end_time callback fuel st).state.all_klines =
        st.all_klines ++ (pages_of lib symbol freq reqs).flatten ∧
      (fetch_loop lib net symbol freq end_time callback fuel st).state.current_start =
        final_cursor lib symbol freq st.current_start reqs ∧
      (fetch_loop lib net symbol freq end_time callback fuel st).state.sink =
        (batches_of lib symbol freq reqs).foldl (run_callback callback) st.sink ∧
      reqs.length ≤ fuel ∧
      ((fetch_loop lib net symbol freq end_time callback fuel st).returned = false →
        reqs.length = fuel ∧ (∀ r ∈ reqs, page_of lib symbol freq r.resp ≠ []) ∧
        final_cursor lib symbol freq st.current_start reqs < end_time) ∧
      ((fetch_loop lib net symbol freq end_time callback fuel st).returned = true →
        ¬ final_cursor lib symbol freq st.current_start reqs < end_time ∨
        ∃ r, reqs.getLast? = some r ∧ page_of lib symbol freq r.resp = []) := by
  induction fuel generalizing st with
  | zero =>
    refine ⟨[], ?_⟩
    by_cases hg : st.current_start < end_time <;>
      simp [fetch_loop, hg, Logged, pages_of, batches_of, final_cursor]
  | succ fuel ih =>
    by_cases hg : st.current_start < end_time
    · rw [fetch_loop, if_pos hg, fetch_body_eq]
      cases hp : page_of lib symbol freq
          (response_at net symbol freq st.requests.length st.current_start) with
      | nil =>
        refine ⟨[⟨st.current_start, request_url symbol freq st.current_start,
          response_at net symbol freq st.requests.length st.current_start⟩], ?_⟩
        simp [Logged, pages_of, batches_of, final_cursor, hp, hg, cursor_after]
      | cons k ks =>
        simp only [if_true]
        obtain ⟨reqs, h1, h2, h3, h4, h5, h6, h7, h8⟩ := ih
          ⟨st.all_klines ++ (k :: ks), cursor_after st.current_start (k :: ks),
            run_callback callback st.sink (k :: ks),
            st.requests ++ [⟨st.current_start, request_url symbol freq st.current_start,
              response_at net symbol freq st.requests.length st.current_start⟩]⟩
        simp only [List.length_append, List.length_singleton] at h2
        refine ⟨⟨st.current_start, request_url symbol freq st.current_start,
          response_at net symbol freq st.requests.length st.current_start⟩ :: reqs,
          ?_, ?_, ?_, ?_, ?_, ?_, ?_, ?_⟩
        · rw [h1]; simp
        · simp only [Logged, hp]
          exact ⟨trivial, hg, trivial, trivial, fun _ => by simp, h2⟩
        · rw [h3]; simp [pages_of, hp]
        · rw [h4]; simp [final_cursor, hp]
        · rw [h5]; simp [batches_of, pages_of, hp]
        · simp only [List.length_cons]; omega
        · intro hr
          obtain ⟨ha, hb, hc⟩ := h7 hr
          refine ⟨by simp [ha], ?_, by simpa [final_cursor, hp] using hc⟩
          intro r hr'
          rcases List.mem_cons.mp hr' with rfl | hmem
          · simp [hp]
          · exact hb r hmem
        · intro hr
          rcases h8 hr with h | ⟨r, hlast, hempty⟩
          · left; simpa [final_cursor, hp] using h
          · right
            refine ⟨r, ?_, hempty⟩
            cases reqs with
            | nil => cases hlast
            | cons a as => simpa [List.getLast?_cons_cons] using hlast
    · refine ⟨[], ?_⟩
      simp [fetch_loop, hg, Logged, pages_of, batches_of, final_cursor]

theorem mulLL_of_inLL (a b : Int) (h : inLL (a * b)) : mulLL a b = a * b :=
  wrapLL_of_inLL _ h

theorem cursor_after_of_getLast? {F : Type} (c : Int) (page : List (KLine F)) (back : KLine F)
    (h : page.getLast? = some back) : cursor_after c page = back.time_stamp + 1 := by
  simp [cursor_after, h]

theorem getLast?_isSome_of_ne_nil {α : Type} (l : List α) (h : l ≠ []) :
    ∃ a, l.getLast? = some a :=
  ⟨l.getLast h, List.getLast?_eq_getLast _ _⟩

/-- In a log, each request after the first is made at one past the time stamp
of the last record of the page before it. -/
theorem logged_chain {F : Type} (lib : Lib F) (net : Network) (symbol freq : String)
    (end_time : Int) (i : Nat) (c : Int) (rs : List Request)
    (h : Logged lib net symbol freq end_time i c rs) :
    List.Chain' (fun r r' => ∃ back, (page_of lib symbol freq r.resp).getLast? = some back ∧
      r'.current_start = back.time_stamp + 1) rs := by
  induction rs generalizing i c with
  | nil => exact List.chain'_nil
  | cons r rs ih =>
    obtain ⟨_, _, _, _, hne, hrest⟩ := h
    cases rs with
    | nil => exact List.chain'_singleton _
    | cons r' rs' =>
      refine List.chain'_cons.mpr ⟨?_, ih _ _ hrest⟩
      obtain ⟨back, hback⟩ := getLast?_isSome_of_ne_nil _ (hne (by simp))
      refine ⟨back, hback, ?_⟩
      rw [hrest.1, cursor_after_of_getLast? _ _ _ hback]

/-- Every request of a log is made below `end_time` with the URL of its cursor. -/
theorem logged_mem {F : Type} (lib : Lib F) (net : Network) (symbol freq : String)
    (end_time : Int) (i : Nat) (c : Int) (rs : List Request)
    (h : Logged lib net symbol freq end_time i c rs) (r : Request) (hr : r ∈ rs) :
    r.current_start < end_time ∧ r.url = request_url symbol freq r.current_start := by
  induction rs generalizing i c with
  | nil => cases hr
  | cons r₀ rs ih =>
    obtain ⟨h1, h2, h3, _, _, hrest⟩ := h
    rcases List.mem_cons.mp hr with rfl | hmem
    · rw [h1]; exact ⟨h2, h3⟩
    · exact ih _ _ hrest hmem

/-- The cursor after a log whose last page is not empty. -/
theorem final_cursor_of_last {F : Type} (lib : Lib F) (symbol freq : String)
    (c : Int) (rs : List Request) (r : Request) (back : KLine F)
    (hr : rs.getLast? = some r) (hback : (page_of lib symbol freq r.resp).getLast? = some back) :
    final_cursor lib symbol freq c rs = back.time_stamp + 1 := by
  induction rs generalizing c with
  | nil => cases hr
  | cons r₀ rs ih =>
    cases rs with
    | nil =>
      simp only [List.getLast?_singleton, Option.some.injEq] at hr
      subst hr
      simp [final_cursor, cursor_after, hback]
    | cons r₁ rs' =>
      rw [List.getLast?_cons_cons] at hr
      rw [final_cursor]
      exact ih _ hr

/-- C5: in `fetch_klines`, the first request is made at `start_time`; every
request is made with the cursor below `end_time` and carries, after the base
URL, symbol and interval, `startTime=` the cursor times 1000 (computed in
`long long`, equal to the product whenever that fits) and `limit=500`; each
further request is made at the `time_stamp` of the last record of the page
before it plus 1; and after a non-empty page `current_start` is the
`time_stamp` of its last record plus 1.  With `start_time < end_time` a first
request is made. -/
theorem C5_cursor_and_requests {F σ : Type} (lib : Lib F) (net : Network) (symbol : String)
    (start_time end_time : Int) (freq : String)
    (callback : Option (σ → List (KLine F) → σ)) (sink : σ) (fuel : Nat) :
    (∀ r, (fetch_klines lib net symbol start_time end_time freq callback sink
        fuel).state.requests.head? = some r → r.current_start = start_time) ∧
    List.Chain' (fun r r' => ∃ back, (page_of lib symbol freq r.resp).getLast? = some back ∧
        r'.current_start = back.time_stamp + 1)
      (fetch_klines lib net symbol start_time end_time freq callback sink fuel).state.requests ∧
    (∀ r ∈ (fetch_klines lib net symbol start_time end_time freq callback sink
        fuel).state.requests,
      r.current_start < end_time ∧
      r.url = base_url ++ "?symbol=" ++ symbol ++ "&interval=" ++ freq ++ "&startTime=" ++
        toString (mulLL r.current_start 1000) ++ "&limit=500" ∧
      (inLL (r.current_start * 1000) → mulLL r.current_start 1000 = r.current_start * 1000)) ∧
    (∀ r back, (fetch_klines lib net symbol start_time end_time freq callback sink
        fuel).state.requests.getLast? = some r →
      (page_of lib symbol freq r.resp).getLast? = some back →
      (fetch_klines lib net symbol start_time end_time freq callback sink
        fuel).state.current_start = back.time_stamp + 1) ∧
    (start_time < end_time → 0 < fuel →
      (fetch_klines lib net symbol start_time end_time freq callback sink
        fuel).state.requests ≠ []) := by
  obtain ⟨reqs, h1, h2, _, h4, _, _, h7, h8⟩ := fetch_loop_spec lib net symbol freq end_time
    callback fuel ⟨[], start_time, sink, []⟩
  simp only [List.nil_append, List.length_nil] at h1 h2 h4 h7 h8
  unfold fetch_klines
  rw [h1, h4]
  refine ⟨?_, logged_chain lib net symbol freq end_time 0 start_time reqs h2, ?_, ?_, ?_⟩
  · intro r hr
    cases reqs with
    | nil => cases hr
    | cons r₀ rs =>
      simp only [List.head?_cons, Option.some.injEq] at hr
      subst hr
      exact h2.1
  · intro r hr
    obtain ⟨ha, hb⟩ := logged_mem lib net symbol freq end_time 0 start_time reqs h2 r hr
    exact ⟨ha, hb, mulLL_of_inLL _ _⟩
  · intro r back hr hback
    exact final_cursor_of_last lib symbol freq start_time reqs r back hr hback
  · intro hlt hfuel hnil
    subst hnil
    cases hret : (fetch_loop lib net symbol freq end_time callback fuel
        ⟨[], start_time, sink, []⟩).returned with
    | false =>
      have := (h7 hret).1
      simp at this
      omega
    | true =>
      rcases h8 hret with h | ⟨r, hr, _⟩
      · exact h (by simpa [final_cursor] using hlt)
      · cases hr

set_option maxRecDepth 100000 in
/-- C5 on the provider that has the two-record page of 2024-01-01: the first
request asks for `startTime=1704067200000`, the second for
`startTime=1704070801000`, one second past the last record, both with
`limit=500`. -/
theorem C5_cursor_and_requests_witness :
    (fetch_klines miniLib twoHourNet "ETHBTC" 1704067200 1704153600 "1h"
      (some record_batches) [] 5).state.requests.map (fun r => (r.current_start, r.url)) =
    [(1704067200,
      "https://api.binance.com/api/v3/klines?symbol=ETHBTC&interval=1h&startTime=1704067200000&limit=500"),
     (1704070801,
      "https://api.binance.com/api/v3/klines?symbol=ETHBTC&interval=1h&startTime=1704070801000&limit=500")] ∧
    List.Chain' (fun r r' => ∃ back, (page_of miniLib "ETHBTC" "1h" r.resp).getLast? = some back ∧
        r'.current_start = back.time_stamp + 1)
      (fetch_klines miniLib twoHourNet "ETHBTC" 1704067200 1704153600 "1h"
        (some record_batches) [] 5).state.requests :=
  ⟨by decide,
   (C5_cursor_and_requests miniLib twoHourNet "ETHBTC" 1704067200 1704153600 "1h"
      (some record_batches) [] 5).2.1⟩

theorem flatten_filter_nonempty {α : Type} (ps : List (List α)) :
    (ps.filter (fun p => !p.isEmpty)).flatten = ps.flatten := by
  induction ps with
  | nil => rfl
  | cons p ps ih =>
    cases p with
    | nil => simpa [List.filter] using ih
    | cons a as => simp [List.filter, ih]

theorem foldl_record_batches {F : Type} (bs log : List (List (KLine F))) :
    bs.foldl (run_callback (some record_batches)) log = log ++ bs := by
  induction bs generalizing log with
  | nil => simp
  | cons b bs ih => simp [List.foldl_cons, run_callback, record_batches, ih]

/-- C9: whatever the provider does and after any number of passes, the records
accumulated by `fetch_klines` are the concatenation, in request order, of the
non-empty parsed pages fetched so far; the callback has been called on exactly
these pages, once each and in that order (its state is the fold of the
callback over them; a callback that records its batches holds just these
pages, and the accumulated records are their concatenation); every record of
every fetched page is in the result, whatever its `time_stamp`. -/
theorem C9_result_is_concatenation_of_batches {F σ : Type} (lib : Lib F) (net : Network)
    (symbol : String) (start_time end_time : Int) (freq : String)
    (callback : Option (σ → List (KLine F) → σ)) (sink : σ) (fuel : Nat) :
    (fetch_klines lib net symbol start_time end_time freq callback sink fuel).state.all_klines =
      (batches_of lib symbol freq (fetch_klines lib net symbol start_time end_time freq
        callback sink fuel).state.requests).flatten ∧
    (fetch_klines lib net symbol start_time end_time freq callback sink fuel).state.sink =
      (batches_of lib symbol freq (fetch_klines lib net symbol start_time end_time freq
        callback sink fuel).state.requests).foldl (run_callback callback) sink ∧
    (fetch_klines lib net symbol start_time end_time freq (some record_batches) []
        fuel).state.sink =
      batches_of lib symbol freq (fetch_klines lib net symbol start_time end_time freq
        (some record_batches) [] fuel).state.requests ∧
    (fetch_klines lib net symbol start_time end_time freq (some record_batches) []
        fuel).state.all_klines =
      (fetch_klines lib net symbol start_time end_time freq (some record_batches) []
        fuel).state.sink.flatten ∧
    (∀ r ∈ (fetch_klines lib net symbol start_time end_time freq callback sink
        fuel).state.requests, ∀ k ∈ page_of lib symbol freq r.resp,
      k ∈ (fetch_klines lib net symbol start_time end_time freq callback sink
        fuel).state.all_klines) := by
  obtain ⟨reqs, h1, _, h3, _, h5, _, _, _⟩ := fetch_loop_spec lib net symbol freq end_time
    callback fuel ⟨[], start_time, sink, []⟩
  obtain ⟨reqs', g1, _, g3, _, g5, _, _, _⟩ := fetch_loop_spec lib net symbol freq end_time
    (some record_batches) fuel ⟨[], start_time, ([] : List (List (KLine F))), []⟩
  simp only [List.nil_append] at h1 h3 h5 g1 g3 g5
  unfold fetch_klines
  rw [h1, h3, h5, g1, g3, g5, foldl_record_batches, List.nil_append]
  refine ⟨?_, rfl, rfl, ?_, ?_⟩
  · exact (flatten_filter_nonempty _).symm
  · exact (flatten_filter_nonempty _).symm
  · intro r hr k hk
    exact List.mem_flatten.mpr ⟨_, List.mem_map.mpr ⟨r, hr, rfl⟩, hk⟩

set_option maxRecDepth 100000 in
/-- C9 on the provider with the two-record page, asked for the range that ends
one second after the first record: one batch reaches the callback, and the
result is that batch, the record at 01:00:00 (past `end_time`) included. -/
theorem C9_result_is_concatenation_witness :
    (fetch_klines miniLib twoHourNet "ETHBTC" 1704067200 1704067201 "1h"
      (some record_batches) [] 5).returned = true ∧
    (fetch_klines miniLib twoHourNet "ETHBTC" 1704067200 1704067201 "1h"
      (some record_batches) [] 5).state.sink = [two_hour_klines] ∧
    (fetch_klines miniLib twoHourNet "ETHBTC" 1704067200 1704067201 "1h"
      (some record_batches) [] 5).state.all_klines =
      (fetch_klines miniLib twoHourNet "ETHBTC" 1704067200 1704067201 "1h"
        (some record_batches) [] 5).state.sink.flatten ∧
    (fetch_klines miniLib twoHourNet "ETHBTC" 1704067200 1704067201 "1h"
      (some record_batches) [] 5).state.all_klines.map (fun k => k.time_stamp) =
      [1704067200, 1704070800] :=
  ⟨by decide, by decide,
   (C9_result_is_concatenation_of_batches miniLib twoHourNet "ETHBTC" 1704067200 1704067201
      "1h" (some record_batches) [] 5).2.2.2.1,
   by decide⟩

/-- In a page with non-decreasing time stamps the last record is the latest. -/
theorem le_last_of_sorted {F : Type} (page : List (KLine F)) (back : KLine F)
    (hs : page.Pairwise (fun a b => a.time_stamp ≤ b.time_stamp))
    (hb : page.getLast? = some back) (a : KLine F) (ha : a ∈ page) :
    a.time_stamp ≤ back.time_stamp := by
  obtain ⟨ys, rfl⟩ := List.getLast?_eq_some_iff.mp hb
  rcases List.mem_append.mp ha with h | h
  · exact (List.pairwise_append.mp hs).2.2 a h back (by simp)
  · simp only [List.mem_singleton] at h
    rw [h]

/-- With pages that start at or after their cursor and are non-decreasing, the
pages of a log lie strictly one after the other, at or after the cursor. -/
theorem logged_increasing {F : Type} (lib : Lib F) (net : Network) (symbol freq : String)
    (end_time : Int) (i : Nat) (c : Int) (rs : List Request)
    (h : Logged lib net symbol freq end_time i c rs)
    (hprov : ∀ r ∈ rs,
      (page_of lib symbol freq r.resp).Pairwise (fun a b => a.time_stamp ≤ b.time_stamp) ∧
      ∀ k ∈ page_of lib symbol freq r.resp, r.current_start ≤ k.time_stamp) :
    (∀ r ∈ rs, ∀ k ∈ page_of lib symbol freq r.resp, c ≤ k.time_stamp) ∧
    (pages_of lib symbol freq rs).Pairwise
      (fun p q => ∀ a ∈ p, ∀ b ∈ q, a.time_stamp < b.time_stamp) ∧
    ((pages_of lib symbol freq rs).flatten).Pairwise
      (fun a b => a.time_stamp ≤ b.time_stamp) := by
  induction rs generalizing i c with
  | nil => simp [pages_of]
  | cons r rs ih =>
    obtain ⟨h1, _, _, _, _, hrest⟩ := h
    obtain ⟨hsorted, hfrom⟩ := hprov r (List.mem_cons_self _ _)
    obtain ⟨ih1, ih2, ih3⟩ := ih _ _ hrest (fun r' hr' => hprov r' (List.mem_cons_of_mem _ hr'))
    rw [h1] at hfrom
    have hstep : ∀ a ∈ page_of lib symbol freq r.resp,
        a.time_stamp < cursor_after c (page_of lib symbol freq r.resp) := by
      intro a ha
      obtain ⟨back, hback⟩ := getLast?_isSome_of_ne_nil _ (List.ne_nil_of_mem ha)
      rw [cursor_after_of_getLast? _ _ _ hback]
      have := le_last_of_sorted _ back hsorted hback a ha
      omega
    have hmono : c ≤ cursor_after c (page_of lib symbol freq r.resp) := by
      cases hp : page_of lib symbol freq r.resp with
      | nil => simp [cursor_after]
      | cons k ks =>
        have hk : k ∈ page_of lib symbol freq r.resp := by rw [hp]; exact List.mem_cons_self _ _
        have := hstep k hk
        have := hfrom k hk
        rw [hp] at *
        omega
    have hcross : ∀ a ∈ page_of lib symbol freq r.resp, ∀ r' ∈ rs,
        ∀ b ∈ page_of lib symbol freq r'.resp, a.time_stamp < b.time_stamp := by
      intro a ha r' hr' b hb
      have := hstep a ha
      have := ih1 r' hr' b hb
      omega
    refine ⟨?_, ?_, ?_⟩
    · intro r' hr' k hk
      rcases List.mem_cons.mp hr' with rfl | hmem
      · exact hfrom k hk
      · have := ih1 r' hmem k hk
        omega
    · simp only [pages_of, List.map_cons, List.pairwise_cons]
      refine ⟨?_, ih2⟩
      intro q hq a ha b hb
      obtain ⟨r', hr', rfl⟩ := List.mem_map.mp hq
      exact hcross a ha r' hr' b hb
    · simp only [pages_of, List.map_cons, List.flatten_cons]
      refine List.pairwise_append.mpr ⟨hsorted, ih3, ?_⟩
      intro a ha b hb
      obtain ⟨q, hq, hbq⟩ := List.mem_flatten.mp hb
      obtain ⟨r', hr', rfl⟩ := List.mem_map.mp hq
      exact le_of_lt (hcross a ha r' hr' b hbq)

/-- C10: if each page the provider returned holds only records at or after the
cursor it was requested with and is non-decreasing in `time_stamp`, then every
record of a later page has a `time_stamp` strictly greater than that of every
record of every earlier page, and the accumulated result is non-decreasing in
`time_stamp` (it is the concatenation of the pages). -/
theorem C10_no_bucket_twice {F σ : Type} (lib : Lib F) (net : Network)
    (symbol : String) (start_time end_time : Int) (freq : String)
    (callback : Option (σ → List (KLine F) → σ)) (sink : σ) (fuel : Nat)
    (hprov : ∀ r ∈ (fetch_klines lib net symbol start_time end_time freq callback sink
        fuel).state.requests,
      (page_of lib symbol freq r.resp).Pairwise (fun a b => a.time_stamp ≤ b.time_stamp) ∧
      ∀ k ∈ page_of lib symbol freq r.resp, r.current_start ≤ k.time_stamp) :
    (pages_of lib symbol freq (fetch_klines lib net symbol start_time end_time freq callback
        sink fuel).state.requests).Pairwise
      (fun p q => ∀ a ∈ p, ∀ b ∈ q, a.time_stamp < b.time_stamp) ∧
    (fetch_klines lib net symbol start_time end_time freq callback sink
        fuel).state.all_klines =
      (pages_of lib symbol freq (fetch_klines lib net symbol start_time end_time freq callback
        sink fuel).state.requests).flatten ∧
    (fetch_klines lib net symbol start_time end_time freq callback sink
        fuel).state.all_klines.Pairwise (fun a b => a.time_stamp ≤ b.time_stamp) := by
  obtain ⟨reqs, h1, h2, h3, _, _, _, _, _⟩ := fetch_loop_spec lib net symbol freq end_time
    callback fuel ⟨[], start_time, sink, []⟩
  simp only [List.nil_append, List.length_nil] at h1 h2 h3
  unfold fetch_klines at hprov ⊢
  rw [h1] at hprov ⊢
  rw [h3]
  obtain ⟨_, hp, hf⟩ := logged_increasing lib net symbol freq end_time 0 start_time reqs h2 hprov
  exact ⟨hp, rfl, hf⟩

set_option maxRecDepth 100000 in
/-- C10 on a provider with two pages of two hourly records each: the
hypotheses hold, four records come back, strictly increasing. -/
theorem C10_no_bucket_twice_witness :
    (pages_of miniLib "ETHBTC" "1h" (fetch_klines miniLib pagedNet "ETHBTC" 1704067200
        1704153600 "1h" (some record_batches) [] 5).state.requests).Pairwise
      (fun p q => ∀ a ∈ p, ∀ b ∈ q, a.time_stamp < b.time_stamp) ∧
    (fetch_klines miniLib pagedNet "ETHBTC" 1704067200 1704153600 "1h"
        (some record_batches) [] 5).state.all_klines.Pairwise
      (fun a b => a.time_stamp ≤ b.time_stamp) ∧
    (fetch_klines miniLib pagedNet "ETHBTC" 1704067200 1704153600 "1h"
        (some record_batches) [] 5).state.all_klines.map (fun k => k.time_stamp) =
      [1704067200, 1704070800, 1704074400, 1704078000] := by
  have h := C10_no_bucket_twice miniLib pagedNet "ETHBTC" 1704067200 1704153600 "1h"
    (some record_batches) [] 5 (by decide)
  exact ⟨h.1, h.2.2, by decide⟩

/-- In a log only the last request can have an empty page. -/
theorem logged_empty_is_last {F : Type} (lib : Lib F) (net : Network) (symbol freq : String)
    (end_time : Int) (i : Nat) (c : Int) (rs : List Request)
    (h : Logged lib net symbol freq end_time i c rs) (r : Request) (hr : r ∈ rs)
    (hempty : page_of lib symbol freq r.resp = []) : rs.getLast? = some r := by
  induction rs generalizing i c with
  | nil => cases hr
  | cons r₀ rs ih =>
    obtain ⟨_, _, _, _, hne, hrest⟩ := h
    cases rs with
    | nil =>
      simp only [List.mem_singleton] at hr
      simp [hr]
    | cons r₁ rs' =>
      rw [List.getLast?_cons_cons]
      rcases List.mem_cons.mp hr with rfl | hmem
      · exact absurd hempty (hne (by simp))
      · exact ih _ _ hrest hmem

/-- With pages whose last record is their latest and lies at or after the
cursor, the cursors of a log increase strictly, each beyond every time stamp
of the page before it, and the log has at most `end_time - c` requests. -/
theorem logged_advancing {F : Type} (lib : Lib F) (net : Network) (symbol freq : String)
    (end_time : Int) (i : Nat) (c : Int) (rs : List Request)
    (h : Logged lib net symbol freq end_time i c rs)
    (hprov : ∀ r ∈ rs, ∀ back, (page_of lib symbol freq r.resp).getLast? = some back →
      r.current_start ≤ back.time_stamp ∧
      ∀ k ∈ page_of lib symbol freq r.resp, k.time_stamp ≤ back.time_stamp) :
    List.Chain' (fun r r' => r.current_start < r'.current_start ∧
      ∀ k ∈ page_of lib symbol freq r.resp, k.time_stamp < r'.current_start) rs ∧
    (rs ≠ [] → (rs.length : Int) ≤ end_time - c) ∧
    ((∀ r ∈ rs, page_of lib symbol freq r.resp ≠ []) →
      c + rs.length ≤ final_cursor lib symbol freq c rs) := by
  induction rs generalizing i c with
  | nil => simp [final_cursor]
  | cons r rs ih =>
    obtain ⟨h1, h2, _, _, hne, hrest⟩ := h
    obtain ⟨ih1, ih2, ih3⟩ := ih _ _ hrest (fun r' hr' => hprov r' (List.mem_cons_of_mem _ hr'))
    have hadv : page_of lib symbol freq r.resp ≠ [] →
        c < cursor_after c (page_of lib symbol freq r.resp) ∧
        ∀ k ∈ page_of lib symbol freq r.resp,
          k.time_stamp < cursor_after c (page_of lib symbol freq r.resp) := by
      intro hp
      obtain ⟨back, hback⟩ := getLast?_isSome_of_ne_nil _ hp
      obtain ⟨ha, hb⟩ := hprov r (List.mem_cons_self _ _) back hback
      rw [cursor_after_of_getLast? _ _ _ hback]
      rw [h1] at ha
      exact ⟨by omega, fun k hk => by have := hb k hk; omega⟩
    refine ⟨?_, ?_, ?_⟩
    · cases rs with
      | nil => exact List.chain'_singleton _
      | cons r' rs' =>
        refine List.chain'_cons.mpr ⟨?_, ih1⟩
        obtain ⟨ha, hb⟩ := hadv (hne (by simp))
        rw [hrest.1, h1]
        exact ⟨ha, hb⟩
    · intro _
      cases rs with
      | nil => simp; omega
      | cons r' rs' =>
        obtain ⟨ha, _⟩ := hadv (hne (by simp))
        have := ih2 (by simp)
        simp only [List.length_cons] at this ⊢
        push_cast at this ⊢
        omega
    · intro hall
      obtain ⟨ha, _⟩ := hadv (hall r (List.mem_cons_self _ _))
      have := ih3 (fun r' hr' => hall r' (List.mem_cons_of_mem _ hr'))
      simp only [final_cursor, List.length_cons]
      push_cast
      omega

/-- C7 (amended): suppose the last record of every non-empty page the provider
returned is the latest of its page and lies at or after the cursor the page
was requested with.  Then the loop of `fetch_klines` terminates within
`end_time - start_time` passes: each request after the first is made at a
cursor strictly greater than the cursor before and than every `time_stamp` of
the page before, the same holds for `current_start` after the last page, only
the last request can have an empty response or empty parsed page, and at most
`end_time - start_time` requests are made. -/
theorem C7_terminates_when_pages_reach_cursor {F σ : Type} (lib : Lib F) (net : Network)
    (symbol : String) (start_time end_time : Int) (freq : String)
    (callback : Option (σ → List (KLine F) → σ)) (sink : σ) (fuel : Nat)
    (hfuel : (end_time - start_time).toNat ≤ fuel)
    (hprov : ∀ r ∈ (fetch_klines lib net symbol start_time end_time freq callback sink
        fuel).state.requests,
      ∀ back, (page_of lib symbol freq r.resp).getLast? = some back →
        r.current_start ≤ back.time_stamp ∧
        ∀ k ∈ page_of lib symbol freq r.resp, k.time_stamp ≤ back.time_stamp) :
    (fetch_klines lib net symbol start_time end_time freq callback sink fuel).returned = true ∧
    (fetch_klines lib net symbol start_time end_time freq callback sink
        fuel).state.requests.length ≤ (end_time - start_time).toNat ∧
    List.Chain' (fun r r' => r.current_start < r'.current_start ∧
        ∀ k ∈ page_of lib symbol freq r.resp, k.time_stamp < r'.current_start)
      (fetch_klines lib net symbol start_time end_time freq callback sink fuel).state.requests ∧
    (∀ r back, (fetch_klines lib net symbol start_time end_time freq callback sink
        fuel).state.requests.getLast? = some r →
      (page_of lib symbol freq r.resp).getLast? = some back →
      r.current_start < (fetch_klines lib net symbol start_time end_time freq callback sink
        fuel).state.current_start ∧
      ∀ k ∈ page_of lib symbol freq r.resp, k.time_stamp <
        (fetch_klines lib net symbol start_time end_time freq callback sink
          fuel).state.current_start) ∧
    (∀ r ∈ (fetch_klines lib net symbol start_time end_time freq callback sink
        fuel).state.requests,
      page_of lib symbol freq r.resp = [] →
      (fetch_klines lib net symbol start_time end_time freq callback sink
        fuel).state.requests.getLast? = some r) := by
  obtain ⟨reqs, h1, h2, _, h4, _, _, h7, _⟩ := fetch_loop_spec lib net symbol freq end_time
    callback fuel ⟨[], start_time, sink, []⟩
  simp only [List.nil_append, List.length_nil] at h1 h2 h4 h7
  unfold fetch_klines at hprov ⊢
  rw [h1] at hprov ⊢
  rw [h4]
  obtain ⟨hchain, hlen, hgrow⟩ :=
    logged_advancing lib net symbol freq end_time 0 start_time reqs h2 hprov
  refine ⟨?_, ?_, hchain, ?_, ?_⟩
  · by_contra hret
    have hret' : (fetch_loop lib net symbol freq end_time callback fuel
        ⟨[], start_time, sink, []⟩).returned = false := by
      simpa using hret
    obtain ⟨ha, hb, hc⟩ := h7 hret'
    have := hgrow hb
    rw [ha] at this
    omega
  · by_cases hnil : reqs = []
    · simp [hnil]
    · have := hlen hnil
      omega
  · intro r back hr hback
    obtain ⟨ha, hb⟩ := hprov r (List.mem_of_getLast?_eq_some hr) back hback
    rw [final_cursor_of_last lib symbol freq start_time reqs r back hr hback]
    exact ⟨by omega, fun k hk => by have := hb k hk; omega⟩
  · intro r hr hempty
    exact logged_empty_is_last lib net symbol freq end_time 0 start_time reqs h2 r hr hempty

set_option maxRecDepth 100000 in
/-- C7 (amended) on the provider with two pages: the run returns after three
requests, made at strictly increasing cursors. -/
theorem C7_terminates_witness :
    (fetch_klines miniLib pagedNet "ETHBTC" 1704067200 1704153600 "1h"
      (some record_batches) [] 86400).returned = true ∧
    (fetch_klines miniLib pagedNet "ETHBTC" 1704067200 1704153600 "1h"
      (some record_batches) [] 86400).state.requests.length ≤ 86400 ∧
    (fetch_klines miniLib pagedNet "ETHBTC" 1704067200 1704153600 "1h"
      (some record_batches) [] 86400).state.requests.map (fun r => r.current_start) =
      [1704067200, 1704070801, 1704078001] := by
  have h := C7_terminates_when_pages_reach_cursor miniLib pagedNet "ETHBTC" 1704067200
    1704153600 "1h" (some record_batches) [] 86400 (by decide) (by decide)
  exact ⟨h.1, h.2.1, by decide⟩

set_option maxRecDepth 100000 in
theorem stuck_page (i : Nat) (c : Int) :
    page_of miniLib "ETHBTC" "1h" (response_at stuckNet "ETHBTC" "1h" i c) = two_hour_klines := by
  have h : response_at stuckNet "ETHBTC" "1h" i c = page_two_hours := by rfl
  rw [h]
  decide

set_option maxRecDepth 100000 in
theorem stuck_cursor (c : Int) : cursor_after c two_hour_klines = 1704070801 := by
  have h : two_hour_klines.getLast?.map (fun k => k.time_stamp) = some 1704070800 := by decide
  unfold cursor_after
  cases hl : two_hour_klines.getLast? with
  | none => rw [hl] at h; cases h
  | some back =>
    rw [hl] at h
    simp only [Option.map_some', Option.some.injEq] at h
    simp only [h]
    rfl

set_option maxRecDepth 100000 in
/-- On `stuckNet` the loop never leaves: from any cursor below the end time
the next cursor is again 1704070801. -/
theorem stuck_never_returns (fuel : Nat) (st : FetchState Decimal Unit)
    (h : st.current_start < 1704153605) :
    (fetch_loop miniLib stuckNet "ETHBTC" "1h" 1704153605 none fuel st).returned = false := by
  induction fuel generalizing st with
  | zero => simp [fetch_loop, h]
  | succ fuel ih =>
    rw [fetch_loop, if_pos h, fetch_body_eq, stuck_page]
    have hne : two_hour_klines ≠ [] := by decide
    cases hp : two_hour_klines with
    | nil => exact absurd hp hne
    | cons k ks =>
      simp only [if_true]
      apply ih
      show cursor_after st.current_start (k :: ks) < 1704153605
      rw [← hp, stuck_cursor]
      decide

set_option maxRecDepth 100000 in
/-- C7 as stated fails: a provider that answers every request with the same
page of 2024-01-01, asked for the five seconds from 1704153600, sends the
cursor back to 1704070801 after the first page and keeps it there; the loop
never returns, and after eight passes eight requests have been made, more
than `end_time - start_time = 5`. -/
theorem C7_counterexample :
    (∀ fuel, (fetch_klines miniLib stuckNet "ETHBTC" 1704153600 1704153605 "1h"
      (none : Option (Unit → List (KLine Decimal) → Unit)) () fuel).returned = false) ∧
    (fetch_klines miniLib stuckNet "ETHBTC" 1704153600 1704153605 "1h"
      (none : Option (Unit → List (KLine Decimal) → Unit)) () 8).state.requests.map
        (fun r => r.current_start) =
      [1704153600, 1704070801, 1704070801, 1704070801, 1704070801, 1704070801, 1704070801,
        1704070801] ∧
    ¬ ((fetch_klines miniLib stuckNet "ETHBTC" 1704153600 1704153605 "1h"
      (none : Option (Unit → List (KLine Decimal) → Unit)) () 8).state.requests.length
        ≤ (1704153605 - 1704153600 : Int).toNat) :=
  ⟨fun fuel => stuck_never_returns fuel _ (by decide), by decide, by decide⟩

theorem fetch_loop_stop {F σ : Type} (lib : Lib F) (net : Network) (symbol freq : String)
    (end_time : Int) (callback : Option (σ → List (KLine F) → σ)) (n : Nat)
    (st : FetchState F σ) (h : ¬ st.current_start < end_time) :
    fetch_loop lib net symbol freq end_time callback n st = ⟨st, true⟩ := by
  cases n <;> simp [fetch_loop, h]

theorem fetch_loop_step_nil {F σ : Type} (lib : Lib F) (net : Network) (symbol freq : String)
    (end_time : Int) (callback : Option (σ → List (KLine F) → σ)) (n : Nat)
    (st : FetchState F σ) (h : st.current_start < end_time)
    (hp : page_of lib symbol freq
      (response_at net symbol freq st.requests.length st.current_start) = []) :
    fetch_loop lib net symbol freq end_time callback (n + 1) st =
      ⟨⟨st.all_klines, st.current_start, st.sink,
        st.requests ++ [⟨st.current_start, request_url symbol freq st.current_start,
          response_at net symbol freq st.requests.length st.current_start⟩]⟩, true⟩ := by
  rw [fetch_loop, if_pos h, fetch_body_eq, hp]
  simp

theorem fetch_loop_step_cons {F σ : Type} (lib : Lib F) (net : Network) (symbol freq : String)
    (end_time : Int) (callback : Option (σ → List (KLine F) → σ)) (n : Nat)
    (st : FetchState F σ) (p : List (KLine F)) (h : st.current_start < end_time)
    (hp : page_of lib symbol freq
      (response_at net symbol freq st.requests.length st.current_start) = p)
    (hne : p ≠ []) :
    fetch_loop lib net symbol freq end_time callback (n + 1) st =
      fetch_loop lib net symbol freq end_time callback n
        ⟨st.all_klines ++ p, cursor_after st.current_start p, run_callback callback st.sink p,
          st.requests ++ [⟨st.current_start, request_url symbol freq st.current_start,
            response_at net symbol freq st.requests.length st.current_start⟩]⟩ := by
  rw [fetch_loop, if_pos h, fetch_body_eq, hp]
  cases p with
  | nil => exact absurd rfl hne
  | cons k ks => simp

theorem cursors_append {F : Type} (c : Int) (ps qs : List (List (KLine F))) :
    cursors c (ps ++ qs) = cursors c ps ++ cursors (cursor_end c ps) qs := by
  induction ps generalizing c with
  | nil => simp [cursors, cursor_end]
  | cons p ps ih => simp [cursors, cursor_end, ih] 

theorem cursor_end_append {F : Type} (c : Int) (ps qs : List (List (KLine F))) :
    cursor_end c (ps ++ qs) = cursor_end (cursor_end c ps) qs := by
  simp [cursor_end, List.foldl_append]

/-- The loop working through non-empty pages the provider serves below
`end_time`: one pass each. -/
theorem fetch_loop_serves {F σ : Type} (lib : Lib F) (net : Network) (symbol freq : String)
    (end_time : Int) (callback : Option (σ → List (KLine F) → σ))
    (pages rest : List (List (KLine F))) (n : Nat) (st : FetchState F σ)
    (hne : ∀ p ∈ pages, p ≠ [])
    (hserve : Serves lib net symbol freq st.requests.length st.current_start (pages ++ rest))
    (hrange : ∀ c ∈ cursors st.current_start pages, c < end_time) :
    ∃ st' : FetchState F σ,
      fetch_loop lib net symbol freq end_time callback (pages.length + n) st =
        fetch_loop lib net symbol freq end_time callback n st' ∧
      st'.all_klines = st.all_klines ++ pages.flatten ∧
      st'.current_start = cursor_end st.current_start pages ∧
      st'.requests.length = st.requests.length + pages.length ∧
      Serves lib net symbol freq st'.requests.length st'.current_start rest := by
  induction pages generalizing st with
  | nil => exact ⟨st, by simp, by simp, by simp [cursor_end], by simp, by simpa using hserve⟩
  | cons p ps ih =>
    obtain ⟨hp, hrest⟩ := hserve
    have hlt : st.current_start < end_time := hrange _ (by simp [cursors])
    have hstep := fetch_loop_step_cons lib net symbol freq end_time callback (ps.length + n) st p
      hlt hp (hne p (List.mem_cons_self _ _))
    obtain ⟨st', h1, h2, h3, h4, h5⟩ := ih
      ⟨st.all_klines ++ p, cursor_after st.current_start p, run_callback callback st.sink p,
        st.requests ++ [⟨st.current_start, request_url symbol freq st.current_start,
          response_at net symbol freq st.requests.length st.current_start⟩]⟩
      (fun q hq => hne q (List.mem_cons_of_mem _ hq))
      (by simpa using hrest)
      (fun c hc => hrange c (by simp [cursors, hc]))
    refine ⟨st', ?_, ?_, ?_, ?_, h5⟩
    · rw [show (p :: ps).length + n = (ps.length + n) + 1 by simp; omega, hstep, h1]
    · rw [h2]; simp
    · rw [h3]; simp [cursor_end]
    · rw [h4]; simp; omega

theorem length_flatten_full {α : Type} (pages : List (List α))
    (hfull : ∀ p ∈ pages, p.length = 500) : pages.flatten.length = 500 * pages.length := by
  induction pages with
  | nil => rfl
  | cons p ps ih =>
    have h1 := hfull p (List.mem_cons_self _ _)
    have h2 := ih (fun q hq => hfull q (List.mem_cons_of_mem _ hq))
    simp only [List.flatten_cons, List.length_append, List.length_cons, h1, h2]
    omega

/-- C6 (amended): when the provider serves the range as `K` full pages of 500
records, then one partial page (fewer than 500 records), then nothing, each
requested below `end_time`, `fetch_klines` returns exactly `500 * K +
partial_count` records, the pages in order; it makes `K + 1` fetch calls when
the partial page is empty or the cursor after it has reached `end_time`, and
`K + 2` otherwise, the last one being the request that is answered with
nothing. -/
theorem C6_fetch_calls_and_records {F σ : Type} (lib : Lib F) (net : Network)
    (symbol : String) (start_time end_time : Int) (freq : String)
    (callback : Option (σ → List (KLine F) → σ)) (sink : σ) (fuel : Nat)
    (pages : List (List (KLine F))) (part : List (KLine F))
    (hfull : ∀ p ∈ pages, p.length = 500) (hpart : part.length < 500)
    (hserve : Serves lib net symbol freq 0 start_time (pages ++ [part, []]))
    (hrange : ∀ c ∈ cursors start_time (pages ++ [part]), c < end_time)
    (hfuel : pages.length + 2 ≤ fuel) :
    (fetch_klines lib net symbol start_time end_time freq callback sink fuel).returned = true ∧
    (fetch_klines lib net symbol start_time end_time freq callback sink fuel).state.all_klines =
      pages.flatten ++ part ∧
    (fetch_klines lib net symbol start_time end_time freq callback sink
      fuel).state.all_klines.length = 500 * pages.length + part.length ∧
    (part = [] ∨ end_time ≤ cursor_end start_time (pages ++ [part]) →
      (fetch_klines lib net symbol start_time end_time freq callback sink
        fuel).state.requests.length = pages.length + 1) ∧
    (part ≠ [] → cursor_end start_time (pages ++ [part]) < end_time →
      (fetch_klines lib net symbol start_time end_time freq callback sink
        fuel).state.requests.length = pages.length + 2) := by
  obtain ⟨m, rfl⟩ : ∃ m, fuel = pages.length + (m + 2) := ⟨fuel - pages.length - 2, by omega⟩
  have hne : ∀ p ∈ pages, p ≠ [] := fun p hp h => by
    have := hfull p hp
    rw [h] at this
    cases this
  rw [cursors_append] at hrange
  obtain ⟨st', h1, h2, h3, h4, h5⟩ := fetch_loop_serves lib net symbol freq end_time callback
    pages [part, []] (m + 2) ⟨[], start_time, sink, []⟩ hne hserve
    (fun c hc => hrange c (List.mem_append_left _ hc))
  simp only [List.nil_append, List.length_nil, Nat.zero_add] at h2 h3 h4
  have hcK : st'.current_start < end_time := by
    rw [h3]
    exact hrange _ (List.mem_append_right _ (by simp [cursors]))
  obtain ⟨hpage, hafter, _⟩ := h5
  have hlen := length_flatten_full pages hfull
  have hcend : cursor_end start_time (pages ++ [part]) = cursor_after st'.current_start part := by
    rw [cursor_end_append, h3]; rfl
  unfold fetch_klines
  rw [h1, hcend]
  by_cases hp0 : part = []
  · rw [fetch_loop_step_nil lib net symbol freq end_time callback (m + 1) st' hcK
      (by rw [hpage, hp0])]
    subst hp0
    simp [h2, h4, hlen]
  · rw [fetch_loop_step_cons lib net symbol freq end_time callback (m + 1) st' part hcK hpage
      hp0]
    by_cases hlt : cursor_after st'.current_start part < end_time
    · rw [fetch_loop_step_nil lib net symbol freq end_time callback m _ hlt
        (by simpa using hafter)]
      simp only [List.length_append, List.length_singleton, h2, h4, hlen]
      refine ⟨trivial, trivial, trivial, ?_, fun _ _ => trivial⟩
      rintro (h | h)
      · exact absurd h hp0
      · omega
    · rw [fetch_loop_stop lib net symbol freq end_time callback (m + 1) _ hlt]
      simp only [List.length_append, List.length_singleton, h2, h4, hlen]
      exact ⟨trivial, trivial, trivial, fun _ => trivial, fun _ h => absurd h hlt⟩

set_option maxRecDepth 100000 in
/-- C6 as stated fails: with no full page (`K = 0`), a partial page of two
records and nothing afterwards, inside the range, `fetch_klines` returns the
two records but makes two fetch calls, not `K + 1 = 1`: the second one is the
request that is answered with nothing. -/
theorem C6_counterexample :
    Serves miniLib twoHourNet "ETHBTC" "1h" 0 1704067200 [two_hour_klines, []] ∧
    two_hour_klines.length = 2 ∧
    (fetch_klines miniLib twoHourNet "ETHBTC" 1704067200 1704153600 "1h"
      (some record_batches) [] 5).returned = true ∧
    (fetch_klines miniLib twoHourNet "ETHBTC" 1704067200 1704153600 "1h"
      (some record_batches) [] 5).state.all_klines.length = 500 * 0 + 2 ∧
    (fetch_klines miniLib twoHourNet "ETHBTC" 1704067200 1704153600 "1h"
      (some record_batches) [] 5).state.requests.length = 2 ∧
    ¬ ((fetch_klines miniLib twoHourNet "ETHBTC" 1704067200 1704153600 "1h"
      (some record_batches) [] 5).state.requests.length = 0 + 1) := by
  refine ⟨⟨by decide, by decide, trivial⟩, by decide, by decide, by decide, by decide, by decide⟩

set_option maxRecDepth 100000 in
/-- C6 (amended) on the provider with the two-record page: no full page, a
partial page of two records, then nothing; two records, two fetch calls. -/
theorem C6_fetch_calls_and_records_witness :
    (fetch_klines miniLib twoHourNet "ETHBTC" 1704067200 1704153600 "1h"
      (some record_batches) [] 5).returned = true ∧
    (fetch_klines miniLib twoHourNet "ETHBTC" 1704067200 1704153600 "1h"
      (some record_batches) [] 5).state.all_klines = two_hour_klines ∧
    (fetch_klines miniLib twoHourNet "ETHBTC" 1704067200 1704153600 "1h"
      (some record_batches) [] 5).state.requests.length = 0 + 2 := by
  have h := C6_fetch_calls_and_records miniLib twoHourNet "ETHBTC" 1704067200 1704153600
    "1h" (some record_batches) [] 5 [] two_hour_klines
    (fun p hp => by cases hp) (by decide) ⟨by decide, by decide, trivial⟩ (by decide)
    (by decide)
  exact ⟨h.1, h.2.1, h.2.2.2.2 (by decide) (by decide)⟩

/-! ## `insert_klines` -/

/-- The columns after the loop: each is the list of its field over the batch. -/
theorem foldl_append_row {F : Type} (klines : List (KLine F)) (c : KLineColumns F) :
    klines.foldl append_row c =
      ⟨c.col_time_stamp ++ klines.map (·.time_stamp), c.col_symbol ++ klines.map (·.symbol),
        c.col_open ++ klines.map (·.open_), c.col_high ++ klines.map (·.high),
        c.col_low ++ klines.map (·.low), c.col_close ++ klines.map (·.close),
        c.col_volume ++ klines.map (·.volume), c.col_amount ++ klines.map (·.amount),
        c.col_trade ++ klines.map (·.trade), c.col_type ++ klines.map (·.type),
        c.col_datetime ++ klines.map (·.datetime), c.col_date ++ klines.map (·.date),
        c.col_date_stamp ++ klines.map (·.date_stamp)⟩ := by
  induction klines generalizing c with
  | nil => simp
  | cons k ks ih => simp [List.foldl_cons, ih, append_row]

theorem insert_klines_eq {F : Type} (klines : List (KLine F)) (hne : klines ≠ []) :
    insert_klines klines = .insert "binance_kline" (block_of klines) := by
  have he : klines.isEmpty = false := by cases klines <;> simp_all
  simp [insert_klines, he, foldl_append_row, build_block, append_columns, Block.AppendColumn,
    Column.Size, block_of]

theorem row_at_block_of {F : Type} (klines : List (KLine F)) (i : Nat) (hi : i < klines.length) :
    row_at (block_of klines) i = some (klines[i]) := by
  simp [row_at, block_of, with_cell, List.get?_eq_getElem?, List.getElem?_map,
    List.getElem?_eq_getElem hi]

theorem rows_from_block_of {F : Type} (klines : List (KLine F)) (n i : Nat)
    (h : i + n = klines.length) : rows_from (block_of klines) n i = klines.drop i := by
  induction n generalizing i with
  | zero => simp [rows_from, show klines.length ≤ i by omega]
  | succ n ih =>
    have hi : i < klines.length := by omega
    rw [rows_from, row_at_block_of klines i hi]
    simp only []
    rw [ih (i + 1) (by omega), List.drop_eq_getElem_cons hi]

/-- C8: for a non-empty batch of `N` records, `insert_klines` makes one insert
into `binance_kline` of a block with exactly 13 columns, named in order
`time_stamp, symbol, open, high, low, close, volume, amount, trade, type,
datetime, date, date_stamp`, each of length `N`; column by column, position
`i` holds the corresponding field of the `i`-th record (the column is the list
of that field over the batch); and reading the block back row by row gives
the batch again, field for field. -/
theorem C8_columnar_alignment {F : Type} (klines : List (KLine F)) (hne : klines ≠ []) :
    ∃ block : Block F,
      insert_klines klines = .insert "binance_kline" block ∧
      block.columns_.length = 13 ∧
      block.columns_.map Prod.fst = column_names ∧
      (∀ col ∈ block.columns_, col.2.Size = klines.length) ∧
      block.columns_.map Prod.snd =
        [.int64 (klines.map (·.time_stamp)), .string (klines.map (·.symbol)),
         .float64 (klines.map (·.open_)), .float64 (klines.map (·.high)),
         .float64 (klines.map (·.low)), .float64 (klines.map (·.close)),
         .float64 (klines.map (·.volume)), .float64 (klines.map (·.amount)),
         .int32 (klines.map (·.trade)), .string (klines.map (·.type)),
         .string (klines.map (·.datetime)), .string (klines.map (·.date)),
         .int64 (klines.map (·.date_stamp))] ∧
      (∀ i (hi : i < klines.length), row_at block i = some (klines.get ⟨i, hi⟩)) ∧
      rows_of block = klines := by
  refine ⟨block_of klines, insert_klines_eq klines hne, rfl, rfl, ?_, rfl, ?_, ?_⟩
  · intro col hcol
    simp only [block_of, List.mem_cons, List.mem_singleton, List.not_mem_nil, or_false] at hcol
    rcases hcol with h | h | h | h | h | h | h | h | h | h | h | h | h <;>
      subst h <;> simp [Column.Size]
  · intro i hi
    exact row_at_block_of klines i hi
  · have h := rows_from_block_of klines klines.length 0 (by simp)
    simpa [rows_of, block_of] using h

set_option maxRecDepth 100000 in
/-- C8 on the two records of 2024-01-01: one insert into `binance_kline`; the
`time_stamp` and `datetime` columns are as listed; the rows read back are the
batch. -/
theorem C8_columnar_alignment_witness :
    ∃ block : Block Decimal,
      insert_klines two_hour_klines = .insert "binance_kline" block ∧
      block.columns_.map Prod.fst = column_names ∧
      block.columns_.get? 0 = some ("time_stamp", .int64 [1704067200, 1704070800]) ∧
      block.columns_.get? 10 =
        some ("datetime", .string ["2024-01-01 00:00:00", "2024-01-01 01:00:00"]) ∧
      rows_of block = two_hour_klines := by
  obtain ⟨block, h1, _, h3, _, _, _, h7⟩ := C8_columnar_alignment two_hour_klines (by decide)
  have hb : block = block_of two_hour_klines := by
    have h := insert_klines_eq two_hour_klines (by decide)
    rw [h1] at h
    exact InsertOutcome.insert.inj h |>.2
  refine ⟨block, h1, h3, ?_, ?_, h7⟩
  · rw [hb]; decide
  · rw [hb]; decide

/-- A record whose open time in milliseconds is at or after `c * 1000` has a
`time_stamp` at or after `c`. -/
theorem time_stamp_ge_cursor (c ms : Int) (h : c * 1000 ≤ ms) : c ≤ Int.tdiv ms 1000 := by
  rcases le_or_lt 0 ms with h0 | h0
  · rw [Int.tdiv_eq_ediv h0 (by norm_num)]; omega
  · have hneg : Int.tdiv ms 1000 = -((-ms) / 1000) := by
      rw [← Int.tdiv_eq_ediv (by omega) (by norm_num), Int.neg_tdiv, neg_neg]
    rw [hneg]; omega

end BinanceKline
